import Mathlib

/-!
Verification of the queue package (Blocking, Circular, Linked, Priority queues)
against its specification.  The Go source is shallowly embedded: slices become
Lean lists with functional update, Go panics (index out of range, division by
zero) become Option none, and fallible operations return Except values paired
with the successor state.  Condition-variable signalling is recorded as an
explicit list of actions emitted by each operation.
-/

namespace Queue

/-- The two sentinel error values of the package:
ErrNoElementsAvailable and ErrQueueIsFull. -/
inductive QErr
  | noElementsAvailable
  | queueIsFull
deriving DecidableEq, Repr

/-- The two sync.Cond condition variables owned by a Blocking queue. -/
inductive CondVar
  | notEmpty
  | notFull
deriving DecidableEq, Repr

/-- A call to Signal or Broadcast on one of the condition variables. -/
inductive CondAction
  | signal (c : CondVar)
  | broadcast (c : CondVar)
deriving DecidableEq, Repr

variable {α : Type}

/-- Reading a slice element; `default` plays the role of the Go zero value
(which is what `make([]T, n)` fills the slice with). -/
def nth [Inhabited α] (l : List α) (i : Nat) : α := l.getD i default

/-- Go's built-in `copy(dst, src)`: overwrites the first
`min(len dst, len src)` entries of `dst` with those of `src`;
the length of `dst` is unchanged. -/
def copySlice (dst src : List α) : List α :=
  src.take dst.length ++ dst.drop src.length

/-- Parallel assignment `l[i], l[j] = l[j], l[i]` (the `Swap` of the
heap.Interface implementation). -/
def listSwap [Inhabited α] (l : List α) (i j : Nat) : List α :=
  (l.set i (nth l j)).set j (nth l i)

/-! ## The Circular queue (circular.go) -/

/-- State of a Circular queue: a fixed-length backing slice `elems`,
`head` (next index to remove), `tail` (next index to insert),
`size` (live element count) and the construction-time snapshot. -/
structure Circular (α : Type) where
  initialElements : List α
  elems : List α
  head : Nat
  tail : Nat
  size : Nat
deriving DecidableEq, Repr

/-- NewCircular: `elems := make([]T, capacity); copy(elems, givenElems)`;
`tail`/`size` start at `len(givenElems)` when that is below capacity and at
`0`/`capacity` otherwise.  The functional-options capacity override is
resolved into the `capacity` argument. -/
def NewCircular [Inhabited α] (givenElems : List α) (capacity : Nat) :
    Circular α :=
  let elems := givenElems.take capacity ++
    List.replicate (capacity - givenElems.length) default
  let tail := if givenElems.length < capacity then givenElems.length else 0
  let size := if givenElems.length < capacity then givenElems.length else capacity
  { initialElements := givenElems, elems := elems,
    head := 0, tail := tail, size := size }

/-- Circular.isEmpty. -/
def Circular.isEmpty (q : Circular α) : Bool := q.size == 0

/-- Circular.Offer: bumps `size` while below capacity, writes at `tail`,
advances `tail` modulo the backing length.  The write `q.elems[q.tail]`
panics (None) when `tail` is out of range — in particular on a
zero-capacity queue. -/
def Circular.Offer (q : Circular α) (item : α) : Option (Circular α) :=
  let size := if q.size < q.elems.length then q.size + 1 else q.size
  if q.tail < q.elems.length then
    some { q with size := size,
                  elems := q.elems.set q.tail item,
                  tail := (q.tail + 1) % q.elems.length }
  else none

/-- Circular.Reset: copies the initial elements back over the backing slice,
zeroes `head`, and recomputes `tail`/`size` from the initial element count.
Note `size` is set to `len(initialElements)` without clamping. -/
def Circular.Reset (q : Circular α) : Circular α :=
  let elems := copySlice q.elems q.initialElements
  let tail := if q.initialElements.length < elems.length
    then q.initialElements.length else 0
  { q with elems := elems, head := 0, tail := tail,
           size := q.initialElements.length }

/-- Circular.get (the unexported helper behind Get/Clear): error on empty,
otherwise read `elems[head]`, advance `head` modulo the length, decrement
`size`.  The read panics (None) when `head` is out of range. -/
def Circular.get [Inhabited α] (q : Circular α) :
    Option (Except QErr α × Circular α) :=
  if q.isEmpty then some (.error .noElementsAvailable, q)
  else if q.head < q.elems.length then
    some (.ok (nth q.elems q.head),
      { q with head := (q.head + 1) % q.elems.length, size := q.size - 1 })
  else none

/-- The drain loop inside Circular.Clear: call `get` until it errors.
`fuel` bounds the iteration count; `size + 1` steps always suffice because
each successful `get` decrements `size`. -/
def Circular.clearAux [Inhabited α] : Nat → Circular α →
    Option (List α × Circular α)
  | 0, q =>
    match q.get with
    | none => none
    | some (.error _, q2) => some ([], q2)
    | some (.ok _, _) => none
  | fuel + 1, q =>
    match q.get with
    | none => none
    | some (.error _, q2) => some ([], q2)
    | some (.ok e, q2) =>
      (Circular.clearAux fuel q2).map (fun r => (e :: r.1, r.2))

/-- Circular.Clear: drains all elements via `get`, then zeroes `head` and
`tail`. -/
def Circular.Clear [Inhabited α] (q : Circular α) :
    Option (List α × Circular α) :=
  (Circular.clearAux (q.size + 1) q).map
    (fun r => (r.1, { r.2 with head := 0, tail := 0 }))

/-- Circular.Contains: the loop runs `i` from `q.head` (not 0) to
`q.size - 1` probing `(q.head + i) mod len`.  On a non-empty queue with an
empty backing slice the modulus would be zero (a Go panic, None). -/
def Circular.Contains [Inhabited α] [DecidableEq α] (q : Circular α)
    (elem : α) : Option Bool :=
  if q.isEmpty then some false
  else if q.elems.length = 0 then none
  else some ((List.range' q.head (q.size - q.head)).any
    (fun i => decide (nth q.elems ((q.head + i) % q.elems.length) = elem)))

/-- Circular.Peek. -/
def Circular.Peek [Inhabited α] (q : Circular α) : Except QErr α :=
  if q.isEmpty then .error .noElementsAvailable
  else .ok (nth q.elems q.head)

/-- Circular.Size. -/
def Circular.Size (q : Circular α) : Nat := q.size

/-! ## The Blocking queue (blocking.go) -/

/-- State of a Blocking queue: the element slice, the construction-time
snapshot, and the optional capacity.  The two condition variables carry no
state of their own; the wake-ups an operation performs are returned as a
list of CondAction values. -/
structure Blocking (α : Type) where
  initialElems : List α
  elems : List α
  capacity : Option Nat
deriving DecidableEq, Repr

/-- NewBlocking: snapshots the given elements first, then truncates the
live slice to the capacity when one is configured and exceeded.  The
snapshot is taken before the truncation. -/
def NewBlocking (elems : List α) (capacity : Option Nat) : Blocking α :=
  let elems2 := match capacity with
    | some c => if c < elems.length then elems.take c else elems
    | none => elems
  { initialElems := elems, elems := elems2, capacity := capacity }

/-- Blocking.isEmpty. -/
def Blocking.isEmpty (bq : Blocking α) : Bool := bq.elems.length == 0

/-- Blocking.isFull: false when no capacity is configured. -/
def Blocking.isFull (bq : Blocking α) : Bool :=
  match bq.capacity with
  | none => false
  | some c => c ≤ bq.elems.length

/-- Blocking.Offer: rejects when full, otherwise appends and signals
not-empty. -/
def Blocking.Offer (bq : Blocking α) (elem : α) :
    Except QErr Unit × Blocking α × List CondAction :=
  if bq.isFull then (.error .queueIsFull, bq, [])
  else (.ok (), { bq with elems := bq.elems ++ [elem] },
    [.signal .notEmpty])

/-- Blocking.OfferWait after its `for isFull { Wait }` loop has exited:
appends and signals not-empty.  The step relation only applies it in
states where `isFull` is false. -/
def Blocking.offerWait (bq : Blocking α) (elem : α) :
    Blocking α × List CondAction :=
  ({ bq with elems := bq.elems ++ [elem] }, [.signal .notEmpty])

/-- Blocking.get (shared by Get/Iterator): error on empty, otherwise pops
the slice head and signals not-full. -/
def Blocking.get [Inhabited α] (bq : Blocking α) :
    Except QErr α × Blocking α × List CondAction :=
  if bq.isEmpty then (.error .noElementsAvailable, bq, [])
  else (.ok (nth bq.elems 0), { bq with elems := bq.elems.tail },
    [.signal .notFull])

/-- Blocking.GetWait after its `for isEmpty { Wait }` loop has exited.
The step relation only applies it in states where `isEmpty` is false. -/
def Blocking.getWait [Inhabited α] (bq : Blocking α) :
    α × Blocking α × List CondAction :=
  (nth bq.elems 0, { bq with elems := bq.elems.tail }, [.signal .notFull])

/-- Blocking.Reset: restores the construction-time snapshot and broadcasts
on the not-empty condition (and on that condition only). -/
def Blocking.Reset (bq : Blocking α) : Blocking α × List CondAction :=
  ({ bq with elems := bq.initialElems }, [.broadcast .notEmpty])

/-- Blocking.Clear: removes and returns all elements, broadcasting
not-full. -/
def Blocking.Clear (bq : Blocking α) :
    List α × Blocking α × List CondAction :=
  (bq.elems, { bq with elems := [] }, [.broadcast .notFull])

/-- Blocking.Peek. -/
def Blocking.Peek [Inhabited α] (bq : Blocking α) : Except QErr α :=
  if bq.isEmpty then .error .noElementsAvailable
  else .ok (nth bq.elems 0)

/-- Blocking.Size. -/
def Blocking.Size (bq : Blocking α) : Nat := bq.elems.length

/-! ## The Linked queue (linked.go) -/

/-- State of a Linked queue.  The singly linked node chain from `head` to
`tail` is abstracted as the list of its values in traversal order; `size`
is kept as a separate field exactly as in the source. -/
structure Linked (α : Type) where
  list : List α
  size : Nat
  initialElements : List α
deriving DecidableEq, Repr

/-- Linked.offer: links a new node after `tail` (or installs it as `head`
when empty) and increments `size`; in list form this appends. -/
def Linked.offer (lq : Linked α) (value : α) : Linked α :=
  { lq with list := lq.list ++ [value], size := lq.size + 1 }

/-- NewLinked: starts empty, snapshots the given elements, then offers each
of them in order. -/
def NewLinked (elements : List α) : Linked α :=
  elements.foldl (fun q e => q.offer e)
    { list := [], size := 0, initialElements := elements }

/-- Linked.isEmpty. -/
def Linked.isEmpty (lq : Linked α) : Bool := lq.size == 0

/-- Linked.Get: error on empty, otherwise detaches the head node and
decrements `size`. -/
def Linked.Get [Inhabited α] (lq : Linked α) : Except QErr α × Linked α :=
  if lq.isEmpty then (.error .noElementsAvailable, lq)
  else (.ok (nth lq.list 0),
    { lq with list := lq.list.tail, size := lq.size - 1 })

/-- Linked.Reset: empties the queue and re-offers the stored initial
elements in order. -/
def Linked.Reset (lq : Linked α) : Linked α :=
  lq.initialElements.foldl (fun q e => q.offer e)
    { lq with list := [], size := 0 }

/-- Linked.Peek. -/
def Linked.Peek [Inhabited α] (lq : Linked α) : Except QErr α :=
  if lq.isEmpty then .error .noElementsAvailable
  else .ok (nth lq.list 0)

/-- Linked.Clear: returns the traversal and empties the queue. -/
def Linked.Clear (lq : Linked α) : List α × Linked α :=
  (lq.list, { lq with list := [], size := 0 })

/-! ## The Priority queue (priority.go) and container/heap

The Go standard library package container/heap drives the unexported
priorityHeap (Len/Less/Swap/Push/Pop).  Its up/down/Init/Push/Pop functions
are embedded below; the sift loops are written with an explicit fuel
argument that provably dominates their iteration count (`up` strictly
decreases the index, `down` at least doubles it). -/

/-- Parent index in the 0-based binary-heap layout. -/
def parentIdx (j : Nat) : Nat := (j - 1) / 2

/-- container/heap `up`: sift `l[j]` towards the root while it is
Less than its parent.  Each iteration moves to the parent, so fuel
`j + 1` always suffices. -/
def upAux [Inhabited α] (less : α → α → Bool) :
    Nat → List α → Nat → List α
  | 0, l, _ => l
  | fuel + 1, l, j =>
    if parentIdx j = j then l
    else if less (nth l j) (nth l (parentIdx j)) then
      upAux less fuel (listSwap l (parentIdx j) j) (parentIdx j)
    else l

/-- container/heap `up` with sufficient fuel. -/
def heapUp [Inhabited α] (less : α → α → Bool) (l : List α) (j : Nat) :
    List α :=
  upAux less (j + 1) l j

/-- The child of `i` selected by container/heap `down`: the right child
when it exists within `l[0:n]` and is Less than the left child, the left
child otherwise. -/
def downChild [Inhabited α] (less : α → α → Bool) (l : List α)
    (i n : Nat) : Nat :=
  if 2 * i + 2 < n ∧ less (nth l (2 * i + 2)) (nth l (2 * i + 1))
    then 2 * i + 2 else 2 * i + 1

/-- container/heap `down`: sift `l[i]` down within `l[0:n]`, swapping with
the Less of its children while that child is Less than it.  The index at
least doubles each iteration, so fuel `n` always suffices (the `i > i0`
result value is unused by the queue code and dropped). -/
def downAux [Inhabited α] (less : α → α → Bool) :
    Nat → List α → Nat → Nat → List α
  | 0, l, _, _ => l
  | fuel + 1, l, i, n =>
    if n ≤ 2 * i + 1 then l
    else if less (nth l (downChild less l i n)) (nth l i) then
      downAux less fuel (listSwap l i (downChild less l i n))
        (downChild less l i n) n
    else l

/-- container/heap `down` with sufficient fuel. -/
def heapDown [Inhabited α] (less : α → α → Bool) (l : List α) (i n : Nat) :
    List α :=
  downAux less n l i n

/-- container/heap `Init`: `for i := n/2 - 1; i >= 0; i-- { down(h, i, n) }`. -/
def heapInit [Inhabited α] (less : α → α → Bool) (l : List α) : List α :=
  ((List.range (l.length / 2)).reverse).foldl
    (fun acc i => heapDown less acc i l.length) l

/-- container/heap `Push`: append (priorityHeap.Push) then sift up from the
last index. -/
def heapPush [Inhabited α] (less : α → α → Bool) (l : List α) (x : α) :
    List α :=
  heapUp less (l ++ [x]) l.length

/-- container/heap `Pop`: swap the root with the last element of `l[0:n+1]`,
sift the new root down within `l[0:n]`, then remove and return the last
element (priorityHeap.Pop). -/
def heapPop [Inhabited α] (less : α → α → Bool) (l : List α) :
    α × List α :=
  (nth (heapDown less (listSwap l 0 (l.length - 1)) 0 (l.length - 1))
    (l.length - 1),
   (heapDown less (listSwap l 0 (l.length - 1)) 0 (l.length - 1)).take
    (l.length - 1))

/-- The unexported priorityHeap: the backing slice and the injected
comparison function. -/
structure PriorityHeap (α : Type) where
  elems : List α
  lessFunc : α → α → Bool

/-- State of a Priority queue. -/
structure Priority (α : Type) where
  initialElements : List α
  elements : PriorityHeap α
  capacity : Option Nat

/-- sort.Slice with the injected comparison.  Go's sort is an unspecified
(unstable) comparison sort; it is modelled by mergeSort over the same
comparison, which agrees with it whenever lessFunc is a strict weak order. -/
def sortSlice (less : α → α → Bool) (l : List α) : List α :=
  l.mergeSort (fun a b => less a b)

/-- NewPriority: copies the elements, sorts and trims them to the capacity
when one is configured and exceeded, heapifies, and snapshots the heapified
slice as the initial elements. -/
def NewPriority [Inhabited α] (elems : List α) (lessFunc : α → α → Bool)
    (capacity : Option Nat) : Priority α :=
  let heapElems := elems
  let trimmed := match capacity with
    | some c => if c < heapElems.length
      then (sortSlice lessFunc heapElems).take c else heapElems
    | none => heapElems
  let inited := heapInit lessFunc trimmed
  { initialElements := inited,
    elements := { elems := inited, lessFunc := lessFunc },
    capacity := capacity }

/-- Priority.Offer: rejects when a configured capacity is reached,
otherwise heap.Push. -/
def Priority.Offer [Inhabited α] (pq : Priority α) (elem : α) :
    Except QErr Unit × Priority α :=
  match pq.capacity with
  | some c =>
    if c ≤ pq.elements.elems.length then (.error .queueIsFull, pq)
    else (.ok (), { pq with elements := { pq.elements with
      elems := heapPush pq.elements.lessFunc pq.elements.elems elem } })
  | none => (.ok (), { pq with elements := { pq.elements with
      elems := heapPush pq.elements.lessFunc pq.elements.elems elem } })

/-- Priority.Get: error on empty, otherwise heap.Pop. -/
def Priority.Get [Inhabited α] (pq : Priority α) :
    Except QErr α × Priority α :=
  if pq.elements.elems.length = 0 then (.error .noElementsAvailable, pq)
  else (.ok (heapPop pq.elements.lessFunc pq.elements.elems).1,
    { pq with elements := { pq.elements with
      elems := (heapPop pq.elements.lessFunc pq.elements.elems).2 } })

/-- Priority.Reset: truncates or reallocates the heap slice to the length
of the initial snapshot, then copies the snapshot over it. -/
def Priority.Reset [Inhabited α] (pq : Priority α) : Priority α :=
  let e1 := if pq.initialElements.length < pq.elements.elems.length
    then pq.elements.elems.take pq.initialElements.length
    else pq.elements.elems
  let e2 := if e1.length < pq.initialElements.length
    then List.replicate pq.initialElements.length default
    else e1
  { pq with elements := { pq.elements with
      elems := copySlice e2 pq.initialElements } }

/-- Priority.Peek. -/
def Priority.Peek [Inhabited α] (pq : Priority α) : Except QErr α :=
  if pq.elements.elems.length = 0 then .error .noElementsAvailable
  else .ok (nth pq.elements.elems 0)

/-- The loop inside Priority.Clear: heap.Pop repeated `k` times. -/
def clearHeapAux [Inhabited α] (less : α → α → Bool) :
    Nat → List α → List α × List α
  | 0, l => ([], l)
  | k + 1, l =>
    ((heapPop less l).1 :: (clearHeapAux less k (heapPop less l).2).1,
     (clearHeapAux less k (heapPop less l).2).2)

/-- Priority.Clear: pops every element. -/
def Priority.Clear [Inhabited α] (pq : Priority α) :
    List α × Priority α :=
  ((clearHeapAux pq.elements.lessFunc pq.elements.elems.length
      pq.elements.elems).1,
   { pq with elements := { pq.elements with
     elems := (clearHeapAux pq.elements.lessFunc pq.elements.elems.length
       pq.elements.elems).2 } })

/-- Repeatedly calling Priority.Get until the queue reports empty,
collecting the returned elements. -/
def Priority.drainAux [Inhabited α] : Nat → Priority α → List α
  | 0, _ => []
  | k + 1, pq =>
    match pq.Get with
    | (.ok e, pq2) => e :: Priority.drainAux k pq2
    | (.error _, _) => []

/-- Draining a Priority queue via repeated Get. -/
def Priority.drain [Inhabited α] (pq : Priority α) : List α :=
  Priority.drainAux pq.elements.elems.length pq

/-! ## Reachable states

One inductive relation per variant: a state is reachable when it arises
from construction followed by any sequence of the public mutating
operations.  The waiting variants of the Blocking queue step only from
states where their wait predicate has become false. -/

/-- States of a Circular queue reachable from `NewCircular given capa`.
Operations that would panic produce no successor state. -/
inductive CircReachable [Inhabited α] (given : List α) (capa : Nat) :
    Circular α → Prop
  | new : CircReachable given capa (NewCircular given capa)
  | offer {q q2 : Circular α} (e : α) : CircReachable given capa q →
      q.Offer e = some q2 → CircReachable given capa q2
  | get {q : Circular α} {r : Except QErr α} {q2 : Circular α} :
      CircReachable given capa q → q.get = some (r, q2) →
      CircReachable given capa q2
  | clear {q : Circular α} {es : List α} {q2 : Circular α} :
      CircReachable given capa q → q.Clear = some (es, q2) →
      CircReachable given capa q2
  | reset {q : Circular α} : CircReachable given capa q →
      CircReachable given capa q.Reset

/-- States of a Blocking queue reachable from `NewBlocking given cap`. -/
inductive BReachable [Inhabited α] (given : List α) (cap : Option Nat) :
    Blocking α → Prop
  | new : BReachable given cap (NewBlocking given cap)
  | offer {q : Blocking α} (e : α) : BReachable given cap q →
      BReachable given cap (q.Offer e).2.1
  | offerWait {q : Blocking α} (e : α) : BReachable given cap q →
      q.isFull = false → BReachable given cap (q.offerWait e).1
  | get {q : Blocking α} : BReachable given cap q →
      BReachable given cap q.get.2.1
  | getWait {q : Blocking α} : BReachable given cap q →
      q.isEmpty = false → BReachable given cap q.getWait.2.1
  | clear {q : Blocking α} : BReachable given cap q →
      BReachable given cap q.Clear.2.1
  | reset {q : Blocking α} : BReachable given cap q →
      BReachable given cap q.Reset.1

/-- States of a Linked queue reachable from `NewLinked given`. -/
inductive LReachable [Inhabited α] (given : List α) : Linked α → Prop
  | new : LReachable given (NewLinked given)
  | offer {q : Linked α} (e : α) : LReachable given q →
      LReachable given (q.offer e)
  | get {q : Linked α} : LReachable given q →
      LReachable given q.Get.2
  | clear {q : Linked α} : LReachable given q →
      LReachable given q.Clear.2
  | reset {q : Linked α} : LReachable given q →
      LReachable given q.Reset

/-- States of a Priority queue reachable from
`NewPriority given less cap`. -/
inductive PReachable [Inhabited α] (given : List α) (less : α → α → Bool)
    (cap : Option Nat) : Priority α → Prop
  | new : PReachable given less cap (NewPriority given less cap)
  | offer {q : Priority α} (e : α) : PReachable given less cap q →
      PReachable given less cap (q.Offer e).2
  | get {q : Priority α} : PReachable given less cap q →
      PReachable given less cap q.Get.2
  | clear {q : Priority α} : PReachable given less cap q →
      PReachable given less cap q.Clear.2
  | reset {q : Priority α} : PReachable given less cap q →
      PReachable given less cap q.Reset

/-- A sequence of Offer calls on a Blocking queue (keeping the state). -/
def offerAllB (q : Blocking α) (os : List α) : Blocking α :=
  os.foldl (fun q e => (q.Offer e).2.1) q

/-- A sequence of Get calls on a Blocking queue, collecting the results. -/
def getAllB [Inhabited α] : Nat → Blocking α → List (Except QErr α) × Blocking α
  | 0, q => ([], q)
  | k + 1, q =>
    let r := q.get
    let rest := getAllB k r.2.1
    (r.1 :: rest.1, rest.2)

/-- A sequence of Offer calls on a Linked queue. -/
def offerAllL (q : Linked α) (os : List α) : Linked α :=
  os.foldl (fun q e => q.offer e) q

/-- A sequence of Get calls on a Linked queue, collecting the results. -/
def getAllL [Inhabited α] : Nat → Linked α → List (Except QErr α) × Linked α
  | 0, q => ([], q)
  | k + 1, q =>
    let r := q.Get
    let rest := getAllL k r.2
    (r.1 :: rest.1, rest.2)

/-! ## The heap invariant of container/heap

Go's container/heap documents that Less must be a strict weak ordering.
The two properties actually used below are asymmetry and negative
transitivity; `leB less a b` is the derived "a does not come after b"
relation (the complement of less with the arguments flipped). -/

/-- The non-strict companion of the injected comparison:
`leB less a b` holds when `less b a` is false. -/
def leB (less : α → α → Bool) (a b : α) : Prop := less b a = false

/-- Asymmetry of the comparison (part of a strict weak order). -/
def Asymm (less : α → α → Bool) : Prop :=
  ∀ a b, less a b = true → less b a = false

/-- Negative transitivity: the complement of the comparison is transitive
(the other part of a strict weak order). -/
def NegTrans (less : α → α → Bool) : Prop :=
  ∀ a b c, less b a = false → less c b = false → less c a = false

/-- Every parent/child edge of `l[0:n]` whose parent index is at least
`start` is heap-ordered.  `HeapFrom less l n 0` is the full heap
invariant of `l[0:n]`. -/
def HeapFrom [Inhabited α] (less : α → α → Bool) (l : List α)
    (n start : Nat) : Prop :=
  ∀ c, 0 < c → c < n → start ≤ parentIdx c →
    leB less (nth l (parentIdx c)) (nth l c)

/-- The binary-heap invariant of the whole list: no element compares
strictly before its parent. -/
def heapProp [Inhabited α] (less : α → α → Bool) (l : List α) : Prop :=
  HeapFrom less l l.length 0

/-- The tail of the Init loop: down() applied at indices m-1, ..., 0. -/
def initFoldAux [Inhabited α] (less : α → α → Bool) (n m : Nat)
    (l : List α) : List α :=
  ((List.range m).reverse).foldl (fun acc i => heapDown less acc i n) l

/-! ## Structural invariants of reachable states -/

theorem length_copySlice (dst src : List α) :
    (copySlice dst src).length = dst.length := by
  simp [copySlice, List.length_take, List.length_drop]
  omega

theorem copySlice_eq_of_length_le (dst src : List α)
    (h : src.length ≤ dst.length) :
    copySlice dst src = src ++ dst.drop src.length := by
  simp [copySlice, List.take_of_length_le h]

section NthLemmas

variable [Inhabited α]

theorem nth_set_self : ∀ (l : List α) (i : Nat) (b : α), i < l.length →
    nth (l.set i b) i = b
  | _ :: _, 0, _, _ => rfl
  | _ :: l, i + 1, b, h => nth_set_self l i b (Nat.lt_of_succ_lt_succ h)

theorem nth_set_ne : ∀ (l : List α) (i : Nat) (b : α) (k : Nat), k ≠ i →
    nth (l.set i b) k = nth l k
  | [], _, _, _, _ => rfl
  | _ :: _, 0, _, 0, h => absurd rfl h
  | _ :: _, 0, _, _ + 1, _ => rfl
  | _ :: _, _ + 1, _, 0, _ => rfl
  | _ :: l, i + 1, b, k + 1, h =>
    nth_set_ne l i b k (fun hk => h (congrArg Nat.succ hk))

theorem length_listSwap (l : List α) (i j : Nat) :
    (listSwap l i j).length = l.length := by
  simp [listSwap]

theorem nth_listSwap_fst (l : List α) {i j : Nat}
    (hi : i < l.length) (hj : j < l.length) :
    nth (listSwap l i j) i = nth l j := by
  unfold listSwap
  by_cases hij : i = j
  · subst hij
    rw [nth_set_self]
    simpa using hi
  · rw [nth_set_ne _ _ _ _ hij, nth_set_self _ _ _ hi]

theorem nth_listSwap_snd (l : List α) {i j : Nat}
    (hj : j < l.length) :
    nth (listSwap l i j) j = nth l i := by
  unfold listSwap
  rw [nth_set_self]
  simpa using hj

theorem nth_listSwap_other (l : List α) {i j k : Nat}
    (hki : k ≠ i) (hkj : k ≠ j) :
    nth (listSwap l i j) k = nth l k := by
  unfold listSwap
  rw [nth_set_ne _ _ _ _ hkj, nth_set_ne _ _ _ _ hki]

theorem nth_append_left (l l2 : List α) {k : Nat} (h : k < l.length) :
    nth (l ++ l2) k = nth l k := by
  simp [nth, List.getD, List.getElem?_append_left h]

theorem nth_append_self (l : List α) (x : α) :
    nth (l ++ [x]) l.length = x := by
  simp [nth, List.getD]

theorem nth_take (l : List α) {k n : Nat} (h : k < n) :
    nth (l.take n) k = nth l k := by
  simp [nth, List.getD, List.getElem?_take, h]

end NthLemmas

theorem length_elems_NewCircular [Inhabited α] (g : List α) (c : Nat) :
    (NewCircular g c).elems.length = c := by
  simp [NewCircular, List.length_take, List.length_replicate]
  omega

section CircularInv

variable [Inhabited α]

theorem circ_get_shape {q : Circular α} {r : Except QErr α}
    {q2 : Circular α} (h : q.get = some (r, q2)) :
    q2.initialElements = q.initialElements ∧ q2.elems = q.elems ∧
      q2.size ≤ q.size := by
  unfold Circular.get at h
  by_cases he : q.isEmpty
  · rw [if_pos he] at h
    injection h with h
    injection h with hr hq
    subst hq
    exact ⟨rfl, rfl, Nat.le_refl _⟩
  · rw [if_neg he] at h
    by_cases hh : q.head < q.elems.length
    · rw [if_pos hh] at h
      injection h with h
      injection h with hr hq
      subst hq
      exact ⟨rfl, rfl, Nat.sub_le _ _⟩
    · rw [if_neg hh] at h
      exact Option.noConfusion h

theorem circ_clearAux_shape :
    ∀ (fuel : Nat) {q : Circular α} {es : List α} {q2 : Circular α},
    Circular.clearAux fuel q = some (es, q2) →
    q2.initialElements = q.initialElements ∧ q2.elems = q.elems ∧
      q2.size ≤ q.size := by
  intro fuel
  induction fuel with
  | zero =>
    intro q es q2 h
    unfold Circular.clearAux at h
    split at h
    · exact Option.noConfusion h
    · rename_i a qn hg
      injection h with h
      injection h with hes hq
      subst hq
      exact circ_get_shape hg
    · exact Option.noConfusion h
  | succ fuel ih =>
    intro q es q2 h
    unfold Circular.clearAux at h
    split at h
    · exact Option.noConfusion h
    · rename_i a qn hg
      injection h with h
      injection h with hes hq
      subst hq
      exact circ_get_shape hg
    · rename_i e qn hg
      rcases hrec : Circular.clearAux fuel qn with _ | ⟨es2, q3⟩
      · rw [hrec] at h
        exact Option.noConfusion h
      · rw [hrec] at h
        injection h with h
        injection h with hes hq
        subst hq
        rcases ih hrec with ⟨h1, h2, h3⟩
        rcases circ_get_shape hg with ⟨g1, g2, g3⟩
        exact ⟨h1.trans g1, h2.trans g2, h3.trans g3⟩

theorem circ_reachable_inv {given : List α} {capa : Nat} {q : Circular α}
    (h : CircReachable given capa q) :
    q.initialElements = given ∧ q.elems.length = capa ∧
      (given.length ≤ capa → q.size ≤ capa) := by
  induction h with
  | new =>
    refine ⟨rfl, length_elems_NewCircular given capa, ?_⟩
    intro hle
    simp only [NewCircular]
    split <;> omega
  | @offer q q2 e hr heq ih =>
    rcases ih with ⟨h1, h2, h3⟩
    unfold Circular.Offer at heq
    by_cases ht : q.tail < q.elems.length
    · rw [if_pos ht] at heq
      injection heq with heq
      subst heq
      refine ⟨h1, by simpa using h2, ?_⟩
      intro hle
      have h4 := h3 hle
      simp only
      rw [h2]
      split <;> omega
    · rw [if_neg ht] at heq
      exact Option.noConfusion heq
  | @get q r q2 hr heq ih =>
    rcases ih with ⟨h1, h2, h3⟩
    rcases circ_get_shape heq with ⟨g1, g2, g3⟩
    exact ⟨g1.trans h1, by rw [g2]; exact h2,
      fun hle => le_trans g3 (h3 hle)⟩
  | @clear q es q2 hr heq ih =>
    rcases ih with ⟨h1, h2, h3⟩
    unfold Circular.Clear at heq
    rcases ha : Circular.clearAux (q.size + 1) q with _ | ⟨es2, q3⟩
    · rw [ha] at heq
      exact Option.noConfusion heq
    · rw [ha] at heq
      injection heq with heq
      injection heq with hes hq
      subst hq
      rcases circ_clearAux_shape _ ha with ⟨g1, g2, g3⟩
      exact ⟨g1.trans h1, by simpa [g2] using h2,
        fun hle => le_trans g3 (h3 hle)⟩
  | @reset q hr ih =>
    rcases ih with ⟨h1, h2, h3⟩
    refine ⟨h1, by simpa [Circular.Reset, length_copySlice] using h2, ?_⟩
    intro hle
    have : q.Reset.size = given.length := by
      simp [Circular.Reset, h1]
    rw [this]
    exact hle

end CircularInv

section BlockingInv

variable [Inhabited α]

theorem breachable_inv {given : List α} {cap : Option Nat} {q : Blocking α}
    (h : BReachable given cap q) :
    q.initialElems = given ∧ q.capacity = cap ∧
      (∀ c, cap = some c → given.length ≤ c → q.elems.length ≤ c) := by
  induction h with
  | new =>
    refine ⟨rfl, rfl, ?_⟩
    intro c hc hle
    subst hc
    have he : (NewBlocking given (some c)).elems =
        if c < given.length then given.take c else given := rfl
    rw [he]
    split
    · simp only [List.length_take]
      omega
    · omega
  | @offer q e hr ih =>
    rcases ih with ⟨h1, h2, h3⟩
    unfold Blocking.Offer
    by_cases hf : q.isFull
    · simpa [hf] using ⟨h1, h2, h3⟩
    · refine ⟨by simpa [hf] using h1, by simpa [hf] using h2, ?_⟩
      intro c hc hle
      have h4 : ¬ c ≤ q.elems.length := by
        revert hf
        unfold Blocking.isFull
        rw [h2, hc]
        simp
      simp [hf]
      omega
  | @offerWait q e hr hf ih =>
    rcases ih with ⟨h1, h2, h3⟩
    refine ⟨h1, h2, ?_⟩
    intro c hc hle
    have h4 : ¬ c ≤ q.elems.length := by
      revert hf
      unfold Blocking.isFull
      rw [h2, hc]
      simp
    simp [Blocking.offerWait]
    omega
  | @get q hr ih =>
    rcases ih with ⟨h1, h2, h3⟩
    unfold Blocking.get
    by_cases he : q.isEmpty
    · simpa [he] using ⟨h1, h2, h3⟩
    · refine ⟨by simpa [he] using h1, by simpa [he] using h2, ?_⟩
      intro c hc hle
      have := h3 c hc hle
      simp [he, List.length_tail]
      omega
  | @getWait q hr he ih =>
    rcases ih with ⟨h1, h2, h3⟩
    refine ⟨h1, h2, ?_⟩
    intro c hc hle
    have := h3 c hc hle
    simp [Blocking.getWait, List.length_tail]
    omega
  | @clear q hr ih =>
    rcases ih with ⟨h1, h2, h3⟩
    exact ⟨h1, h2, fun c hc hle => by simp [Blocking.Clear]⟩
  | @reset q hr ih =>
    rcases ih with ⟨h1, h2, h3⟩
    refine ⟨h1, h2, ?_⟩
    intro c hc hle
    simpa [Blocking.Reset, h1] using hle

end BlockingInv

section LinkedInv

variable [Inhabited α]

theorem linked_foldl_offer (l : List α) :
    ∀ (q : Linked α),
    l.foldl (fun q e => q.offer e) q =
      { list := q.list ++ l, size := q.size + l.length,
        initialElements := q.initialElements } := by
  induction l with
  | nil => intro q; simp
  | cons x l ih =>
    intro q
    rw [List.foldl_cons, ih]
    simp [Linked.offer]
    omega

theorem lreachable_inv {given : List α} {q : Linked α}
    (h : LReachable given q) :
    q.initialElements = given ∧ q.size = q.list.length := by
  induction h with
  | new =>
    unfold NewLinked
    rw [linked_foldl_offer]
    simp
  | @offer q e hr ih =>
    rcases ih with ⟨h1, h2⟩
    simp [Linked.offer, h1, h2]
  | @get q hr ih =>
    rcases ih with ⟨h1, h2⟩
    unfold Linked.Get
    by_cases he : q.isEmpty
    · simpa [he] using ⟨h1, h2⟩
    · have hs : q.size ≠ 0 := by
        revert he
        unfold Linked.isEmpty
        simp
      refine ⟨by simp [he, h1], ?_⟩
      simp [he, List.length_tail]
      omega
  | @clear q hr ih =>
    rcases ih with ⟨h1, h2⟩
    simp [Linked.Clear, h1]
  | @reset q hr ih =>
    rcases ih with ⟨h1, h2⟩
    unfold Linked.Reset
    rw [linked_foldl_offer]
    simp [h1]

end LinkedInv

section PriorityInv

variable [Inhabited α]

theorem copySlice_resize (dst src : List α) :
    copySlice
      (if (if src.length < dst.length then dst.take src.length else dst).length
          < src.length
        then List.replicate src.length (default : α)
        else if src.length < dst.length then dst.take src.length else dst)
      src = src := by
  by_cases h1 : src.length < dst.length
  · rw [if_pos h1]
    have hlen : (dst.take src.length).length = src.length := by
      simp [List.length_take]
      omega
    rw [hlen, if_neg (lt_irrefl _)]
    rw [copySlice_eq_of_length_le _ _ (le_of_eq hlen.symm)]
    have : (dst.take src.length).drop src.length = [] := by
      apply List.drop_eq_nil_of_le
      omega
    simp [this]
  · rw [if_neg h1]
    by_cases h2 : dst.length < src.length
    · rw [if_pos h2]
      rw [copySlice_eq_of_length_le _ _ (by simp)]
      simp
    · have hlen : dst.length = src.length := by omega
      rw [if_neg (by omega)]
      rw [copySlice_eq_of_length_le _ _ (by omega)]
      have : dst.drop src.length = [] := by
        apply List.drop_eq_nil_of_le
        omega
      simp [this]

/-- Priority.Reset always writes back exactly the initial snapshot
(the truncate/reallocate steps leave a slice whose length equals the
snapshot length, and a full-length copy replaces its contents). -/
theorem priority_reset_elems (pq : Priority α) :
    pq.Reset.elements.elems = pq.initialElements := by
  have h := copySlice_resize (α := α) pq.elements.elems pq.initialElements
  simpa [Priority.Reset] using h

theorem preachable_basic {given : List α} {less : α → α → Bool}
    {cap : Option Nat} {q : Priority α}
    (h : PReachable given less cap q) :
    q.initialElements = (NewPriority given less cap).initialElements ∧
      q.elements.lessFunc = less ∧ q.capacity = cap := by
  induction h with
  | new => exact ⟨rfl, rfl, rfl⟩
  | @offer q e hr ih =>
    rcases ih with ⟨h1, h2, h3⟩
    unfold Priority.Offer
    rcases hc : q.capacity with _ | c
    · simpa [hc] using ⟨h1, h2, hc ▸ h3⟩
    · by_cases hf : c ≤ q.elements.elems.length
      · simpa [hc, hf] using ⟨h1, h2, hc ▸ h3⟩
      · simpa [hc, hf] using ⟨h1, h2, hc ▸ h3⟩
  | @get q hr ih =>
    rcases ih with ⟨h1, h2, h3⟩
    unfold Priority.Get
    by_cases he : q.elements.elems.length = 0
    · simpa [he] using ⟨h1, h2, h3⟩
    · simpa [he] using ⟨h1, h2, h3⟩
  | @clear q hr ih =>
    rcases ih with ⟨h1, h2, h3⟩
    simpa [Priority.Clear] using ⟨h1, h2, h3⟩
  | @reset q hr ih =>
    rcases ih with ⟨h1, h2, h3⟩
    unfold Priority.Reset
    constructor
    · simpa using h1
    · constructor
      · simpa using h2
      · simpa using h3

end PriorityInv

section ClearRun

variable [Inhabited α]

theorem nth_eq_getElem (l : List α) {k : Nat} (h : k < l.length) :
    nth l k = l[k] :=
  List.getD_eq_getElem l default h

/-- Running the Clear drain loop on a state whose live region does not wrap
around the end of the backing slice yields exactly that region. -/
theorem circ_clearAux_no_wrap :
    ∀ (s : Nat) (q : Circular α), q.size = s →
    q.head + q.size ≤ q.elems.length →
    ∃ q2, Circular.clearAux (s + 1) q =
      some ((q.elems.drop q.head).take q.size, q2) := by
  intro s
  induction s with
  | zero =>
    intro q hs hw
    have he : q.isEmpty = true := by
      unfold Circular.isEmpty
      simp [hs]
    refine ⟨q, ?_⟩
    unfold Circular.clearAux Circular.clearAux
    unfold Circular.get
    rw [if_pos he]
    simp [hs]
  | succ s ih =>
    intro q hs hw
    have he : q.isEmpty = false := by
      unfold Circular.isEmpty
      simp [hs]
    have hh : q.head < q.elems.length := by omega
    have hget : q.get = some (.ok (nth q.elems q.head),
        { q with head := (q.head + 1) % q.elems.length,
                 size := q.size - 1 }) := by
      unfold Circular.get
      rw [if_neg (by simp [he]), if_pos hh]
    by_cases hend : q.head + 1 < q.elems.length
    · set q2 : Circular α := { q with head := q.head + 1, size := s } with hq2
      have hget2 : q.get = some (.ok (nth q.elems q.head), q2) := by
        rw [hget, hq2]
        have h1 : (q.head + 1) % q.elems.length = q.head + 1 :=
          Nat.mod_eq_of_lt hend
        have h2 : q.size - 1 = s := by omega
        rw [h1, h2]
      rcases ih q2 rfl (by simp [hq2]; omega) with ⟨q3, hq3⟩
      refine ⟨q3, ?_⟩
      show Circular.clearAux (s + 1 + 1) q = _
      unfold Circular.clearAux
      rw [hget2]
      simp only [hq3, Option.map_some']
      have : q.elems.drop q.head = q.elems[q.head] :: q.elems.drop (q.head + 1) :=
        List.drop_eq_getElem_cons hh
      rw [hs, this]
      simp [hq2, nth_eq_getElem _ hh]
      rw [this, List.take_succ_cons]
    · have hs1 : q.size = 1 := by omega
      have hlen : q.head + 1 = q.elems.length := by omega
      set q2 : Circular α := { q with head := 0, size := 0 } with hq2
      have hget2 : q.get = some (.ok (nth q.elems q.head), q2) := by
        rw [hget, hq2]
        have h1 : (q.head + 1) % q.elems.length = 0 := by
          rw [hlen]
          exact Nat.mod_self _
        have h2 : q.size - 1 = 0 := by omega
        rw [h1, h2]
      have hs0 : s = 0 := by omega
      subst hs0
      rcases ih q2 rfl (by simp [hq2]) with ⟨q3, hq3⟩
      refine ⟨q3, ?_⟩
      show Circular.clearAux (0 + 1 + 1) q = _
      unfold Circular.clearAux
      rw [hget2]
      simp only [hq3, Option.map_some']
      have : q.elems.drop q.head = q.elems[q.head] :: q.elems.drop (q.head + 1) :=
        List.drop_eq_getElem_cons hh
      rw [hs1, this]
      simp [hq2, nth_eq_getElem _ hh]
      rw [this, List.take_succ_cons, List.take_zero]

theorem circ_clear_no_wrap (q : Circular α)
    (h : q.head + q.size ≤ q.elems.length) :
    (q.Clear).map Prod.fst = some ((q.elems.drop q.head).take q.size) := by
  rcases circ_clearAux_no_wrap q.size q rfl h with ⟨q2, hq⟩
  unfold Circular.Clear
  rw [hq]
  simp

end ClearRun

/-! ## FIFO runs -/

section Fifo

variable [Inhabited α]

theorem offerAllB_capacity (os : List α) :
    ∀ (q : Blocking α), (offerAllB q os).capacity = q.capacity := by
  induction os with
  | nil => intro q; rfl
  | cons x os ih =>
    intro q
    show (offerAllB (q.Offer x).2.1 os).capacity = _
    rw [ih]
    unfold Blocking.Offer
    by_cases hf : q.isFull
    · rw [if_pos hf]
    · rw [if_neg hf]

theorem offerAllB_elems (os : List α) :
    ∀ (q : Blocking α),
    (∀ c, q.capacity = some c → q.elems.length + os.length ≤ c) →
    (offerAllB q os).elems = q.elems ++ os := by
  induction os with
  | nil => intro q hcap; simp [offerAllB]
  | cons x os ih =>
    intro q hcap
    have hf : q.isFull = false := by
      unfold Blocking.isFull
      rcases hc : q.capacity with _ | c
      · rfl
      · have h5 := hcap c hc
        simp only [List.length_cons] at h5
        simp
        omega
    have hstep : (q.Offer x).2.1 =
        { q with elems := q.elems ++ [x] } := by
      unfold Blocking.Offer
      rw [hf]
      simp
    show (offerAllB (q.Offer x).2.1 os).elems = _
    rw [hstep]
    rw [ih { q with elems := q.elems ++ [x] }
      (by intro c hc
          have h5 := hcap c hc
          simp only [List.length_cons] at h5
          simp
          omega)]
    simp

theorem getAllB_run :
    ∀ (l : List α) (q : Blocking α), q.elems = l →
    (getAllB l.length q).1 = l.map Except.ok := by
  intro l
  induction l with
  | nil => intro q hq; rfl
  | cons x xs ih =>
    intro q hq
    have he : q.isEmpty = false := by
      unfold Blocking.isEmpty
      simp [hq]
    have hget : q.get = (.ok (nth q.elems 0),
        { q with elems := q.elems.tail }, [.signal .notFull]) := by
      unfold Blocking.get
      rw [if_neg (by simp [he])]
    show ((q.get).1 :: (getAllB xs.length (q.get).2.1).1, _).1 = _
    rw [hget]
    have h0 : nth q.elems 0 = x := by rw [hq]; rfl
    have ht : ({ q with elems := q.elems.tail } : Blocking α).elems = xs := by
      simp [hq]
    rw [h0, ih _ ht]
    rfl

theorem getAllL_run :
    ∀ (l : List α) (q : Linked α), q.list = l → q.size = l.length →
    (getAllL l.length q).1 = l.map Except.ok := by
  intro l
  induction l with
  | nil => intro q hq hs; rfl
  | cons x xs ih =>
    intro q hq hs
    have he : q.isEmpty = false := by
      unfold Linked.isEmpty
      simp [hs]
    have hget : q.Get = (.ok (nth q.list 0),
        { q with list := q.list.tail, size := q.size - 1 }) := by
      unfold Linked.Get
      rw [if_neg (by simp [he])]
    show ((q.Get).1 :: (getAllL xs.length (q.Get).2).1, _).1 = _
    rw [hget]
    have h0 : nth q.list 0 = x := by rw [hq]; rfl
    rw [h0, ih { q with list := q.list.tail, size := q.size - 1 }
      (by simp [hq]) (by simp [hq, hs])]
    rfl

end Fifo

section HeapLemmas

variable [Inhabited α] {less : α → α → Bool}

theorem leB_refl (hA1 : Asymm less) (a : α) : leB less a a := by
  unfold leB
  by_cases h : less a a = true
  · exact absurd (hA1 a a h) (by simp [h])
  · simpa using h

theorem leB_trans (hA2 : NegTrans less) {a b c : α}
    (h1 : leB less a b) (h2 : leB less b c) : leB less a c :=
  hA2 a b c h1 h2

theorem leB_of_less (hA1 : Asymm less) {a b : α}
    (h : less a b = true) : leB less a b := hA1 a b h

theorem parentIdx_child_left (i : Nat) : parentIdx (2 * i + 1) = i := by
  unfold parentIdx
  omega

theorem parentIdx_child_right (i : Nat) : parentIdx (2 * i + 2) = i := by
  unfold parentIdx
  omega

theorem parentIdx_lt {c : Nat} (h : 0 < c) : parentIdx c < c := by
  unfold parentIdx
  omega

theorem parentIdx_children {c i : Nat} (h0 : 0 < c)
    (h : parentIdx c = i) : c = 2 * i + 1 ∨ c = 2 * i + 2 := by
  unfold parentIdx at h
  omega

theorem downChild_lt {l : List α} {i n : Nat} (h : 2 * i + 1 < n) :
    i < downChild less l i n ∧ downChild less l i n < n := by
  unfold downChild
  split <;> omega

theorem parentIdx_downChild (l : List α) (i n : Nat) :
    parentIdx (downChild less l i n) = i := by
  unfold downChild
  split
  · exact parentIdx_child_right i
  · exact parentIdx_child_left i

theorem downAux_length :
    ∀ (fuel : Nat) (l : List α) (i n : Nat),
    (downAux less fuel l i n).length = l.length := by
  intro fuel
  induction fuel with
  | zero => intro l i n; rfl
  | succ fuel ih =>
    intro l i n
    show (if n ≤ 2 * i + 1 then l
      else if less (nth l (downChild less l i n)) (nth l i) then
        downAux less fuel (listSwap l i (downChild less l i n))
          (downChild less l i n) n
      else l).length = _
    split
    · rfl
    · split
      · rw [ih, length_listSwap]
      · rfl

theorem downAux_outside :
    ∀ (fuel : Nat) (l : List α) (i n k : Nat), n ≤ k →
    nth (downAux less fuel l i n) k = nth l k := by
  intro fuel
  induction fuel with
  | zero => intro l i n k hk; rfl
  | succ fuel ih =>
    intro l i n k hk
    show nth (if n ≤ 2 * i + 1 then l
      else if less (nth l (downChild less l i n)) (nth l i) then
        downAux less fuel (listSwap l i (downChild less l i n))
          (downChild less l i n) n
      else l) k = _
    split
    · rfl
    · rename_i hnj
      split
      · rw [ih _ _ _ _ hk]
        have hj : i < downChild less l i n ∧ downChild less l i n < n :=
          downChild_lt (by omega)
        apply nth_listSwap_other <;> omega
      · rfl

theorem upAux_length :
    ∀ (fuel : Nat) (l : List α) (j : Nat),
    (upAux less fuel l j).length = l.length := by
  intro fuel
  induction fuel with
  | zero => intro l j; rfl
  | succ fuel ih =>
    intro l j
    show (if parentIdx j = j then l
      else if less (nth l j) (nth l (parentIdx j)) then
        upAux less fuel (listSwap l (parentIdx j) j) (parentIdx j)
      else l).length = _
    split
    · rfl
    · split
      · rw [ih, length_listSwap]
      · rfl

theorem downAux_succ_eq [Inhabited α] (less : α → α → Bool) (fuel : Nat)
    (l : List α) (i n : Nat) :
    downAux less (fuel + 1) l i n =
      if n ≤ 2 * i + 1 then l
      else if less (nth l (downChild less l i n)) (nth l i) then
        downAux less fuel (listSwap l i (downChild less l i n))
          (downChild less l i n) n
      else l := rfl

/-- Correctness of the sift-down loop.  Precondition: every edge of
`l[0:n]` whose parent is in `[i0, n)` is ordered except possibly the edges
leaving `i`, and (when the hole has already descended, `i` different from
`i0`) the children of `i` are bounded below by the value at `parentIdx i`.
Postcondition: every edge with parent at least `i0` is ordered; indices
below `i0` or at least `n` are untouched; every value of the result within
`[0:n]` comes from `l[0:n]`. -/
theorem downAux_spec [Inhabited α] {less : α → α → Bool}
    (hA1 : Asymm less) (hA2 : NegTrans less) :
    ∀ (fuel : Nat) (l : List α) (i i0 n : Nat),
    n - i ≤ fuel → i0 ≤ i → i < n → n ≤ l.length →
    (∀ c, 0 < c → c < n → i0 ≤ parentIdx c → parentIdx c ≠ i →
      leB less (nth l (parentIdx c)) (nth l c)) →
    (i ≠ i0 → ∀ c, 0 < c → c < n → parentIdx c = i →
      leB less (nth l (parentIdx i)) (nth l c)) →
    HeapFrom less (downAux less fuel l i n) n i0 ∧
    (∀ k, k < i0 ∨ n ≤ k → nth (downAux less fuel l i n) k = nth l k) ∧
    (∀ k, k < n → ∃ m, m < n ∧
      nth (downAux less fuel l i n) k = nth l m) := by
  intro fuel
  induction fuel with
  | zero =>
    intro l i i0 n hfuel hi0 hin hnl hA hB
    omega
  | succ fuel ih =>
    intro l i i0 n hfuel hi0 hin hnl hA hB
    rw [downAux_succ_eq]
    by_cases hj1 : n ≤ 2 * i + 1
    · rw [if_pos hj1]
      refine ⟨?_, fun k _ => rfl, fun k hk => ⟨k, hk, rfl⟩⟩
      intro c hc0 hcn hcp
      by_cases hpc : parentIdx c = i
      · exfalso
        rcases parentIdx_children hc0 hpc with h | h <;> omega
      · exact hA c hc0 hcn hcp hpc
    · set j := downChild less l i n with hjdef
      have hjb : i < j ∧ j < n := downChild_lt (by omega)
      have hjp : parentIdx j = i := parentIdx_downChild l i n
      have hsel : ∀ c, 0 < c → c < n → parentIdx c = i → c ≠ j →
          leB less (nth l j) (nth l c) := by
        by_cases hsw : 2 * i + 2 < n ∧
          less (nth l (2 * i + 2)) (nth l (2 * i + 1)) = true
        · have hj2 : j = 2 * i + 2 := by
            rw [hjdef]
            unfold downChild
            rw [if_pos hsw]
          intro c hc0 hcn hcp hcj
          rcases parentIdx_children hc0 hcp with h | h
          · subst h
            rw [hj2]
            exact hA1 _ _ hsw.2
          · exfalso
            rw [hj2] at hcj
            exact hcj h
        · have hj2 : j = 2 * i + 1 := by
            rw [hjdef]
            unfold downChild
            rw [if_neg hsw]
          intro c hc0 hcn hcp hcj
          rcases parentIdx_children hc0 hcp with h | h
          · exfalso
            rw [hj2] at hcj
            exact hcj h
          · subst h
            rw [hj2]
            unfold leB
            by_cases hb : less (nth l (2 * i + 2)) (nth l (2 * i + 1))
              = true
            · exact absurd ⟨hcn, hb⟩ hsw
            · simpa using hb
      by_cases hless : less (nth l j) (nth l i) = true
      · rw [if_neg hj1, if_pos hless]
        set l2 := listSwap l i j with hl2def
        have hvi : nth l2 i = nth l j :=
          nth_listSwap_fst l (by omega) (by omega)
        have hvj : nth l2 j = nth l i := nth_listSwap_snd l (by omega)
        have hvo : ∀ k, k ≠ i → k ≠ j → nth l2 k = nth l k :=
          fun k h1 h2 => nth_listSwap_other l h1 h2
        have hA2' : ∀ c, 0 < c → c < n → i0 ≤ parentIdx c →
            parentIdx c ≠ j →
            leB less (nth l2 (parentIdx c)) (nth l2 c) := by
          intro c hc0 hcn hcp hcj
          by_cases hpc : parentIdx c = i
          · by_cases hcje : c = j
            · subst hcje
              rw [hpc, hvi, hvj]
              exact hA1 _ _ hless
            · have hci : c ≠ i := by
                have := parentIdx_lt hc0
                omega
              rw [hpc, hvi, hvo c hci hcje]
              exact hsel c hc0 hcn hpc hcje
          · by_cases hci : c = i
            · subst hci
              have hpl := parentIdx_lt hc0
              have hii0 : c ≠ i0 := by omega
              rw [hvo (parentIdx c) (by omega) (by omega), hvi]
              exact hB hii0 j (by omega) hjb.2 hjp
            · by_cases hcj2 : c = j
              · exfalso
                subst hcj2
                exact hpc hjp
              · rw [hvo (parentIdx c) hpc hcj, hvo c hci hcj2]
                exact hA c hc0 hcn hcp hpc
        have hB2' : j ≠ i0 → ∀ c, 0 < c → c < n → parentIdx c = j →
            leB less (nth l2 (parentIdx j)) (nth l2 c) := by
          intro hji0 c hc0 hcn hcp
          rw [hjp, hvi]
          have hpl := parentIdx_lt hc0
          have hcj : c ≠ j := by omega
          have hcni : c ≠ i := by omega
          rw [hvo c hcni hcj]
          have h5 := hA c hc0 hcn (by rw [hcp]; omega) (by rw [hcp]; omega)
          rw [hcp] at h5
          exact h5
        rcases ih l2 j i0 n (by omega) (by omega) hjb.2
          (by rw [hl2def, length_listSwap]; exact hnl) hA2' hB2'
          with ⟨hheap, hout, hprov⟩
        refine ⟨hheap, ?_, ?_⟩
        · intro k hk
          rw [hout k hk]
          exact hvo k (by omega) (by omega)
        · intro k hk
          rcases hprov k hk with ⟨m, hm, hv⟩
          by_cases hmi : m = i
          · refine ⟨j, hjb.2, ?_⟩
            rw [hv, hmi, hvi]
          · by_cases hmj : m = j
            · refine ⟨i, by omega, ?_⟩
              rw [hv, hmj, hvj]
            · exact ⟨m, hm, by rw [hv, hvo m hmi hmj]⟩
      · rw [if_neg hj1, if_neg hless]
        refine ⟨?_, fun k _ => rfl, fun k hk => ⟨k, hk, rfl⟩⟩
        intro c hc0 hcn hcp
        by_cases hpc : parentIdx c = i
        · have h1 : leB less (nth l i) (nth l j) := by
            unfold leB
            simpa using hless
          by_cases hcj : c = j
          · subst hcj
            rw [hpc]
            exact h1
          · rw [hpc]
            exact leB_trans hA2 h1 (hsel c hc0 hcn hpc hcj)
        · exact hA c hc0 hcn hcp hpc

theorem upAux_succ_eq [Inhabited α] (less : α → α → Bool) (fuel : Nat)
    (l : List α) (j : Nat) :
    upAux less (fuel + 1) l j =
      if parentIdx j = j then l
      else if less (nth l j) (nth l (parentIdx j)) then
        upAux less fuel (listSwap l (parentIdx j) j) (parentIdx j)
      else l := rfl

theorem parentIdx_eq_self {j : Nat} : parentIdx j = j ↔ j = 0 := by
  unfold parentIdx
  omega

/-- Correctness of the sift-up loop.  Precondition: every edge of the list
is ordered except possibly the one into `j`, and the children of `j` are
bounded below by the value at `parentIdx j`.  Postcondition: a full
heap. -/
theorem upAux_spec [Inhabited α] {less : α → α → Bool}
    (hA1 : Asymm less) (hA2 : NegTrans less) :
    ∀ (fuel : Nat) (l : List α) (j : Nat),
    j < fuel → j < l.length →
    (∀ c, 0 < c → c < l.length → c ≠ j →
      leB less (nth l (parentIdx c)) (nth l c)) →
    (∀ c, 0 < c → c < l.length → parentIdx c = j →
      leB less (nth l (parentIdx j)) (nth l c)) →
    heapProp less (upAux less fuel l j) := by
  intro fuel
  induction fuel with
  | zero =>
    intro l j hfuel
    omega
  | succ fuel ih =>
    intro l j hfuel hjl hA hB
    rw [upAux_succ_eq]
    by_cases hjz : parentIdx j = j
    · rw [if_pos hjz]
      have hj0 : j = 0 := parentIdx_eq_self.mp hjz
      intro c hc0 hcl _
      exact hA c hc0 hcl (by omega)
    · have hj0 : j ≠ 0 := fun h => hjz (by rw [h]; rfl)
      have hpl : parentIdx j < j := parentIdx_lt (by omega)
      by_cases hless : less (nth l j) (nth l (parentIdx j)) = true
      · rw [if_neg hjz, if_pos hless]
        have hil : parentIdx j < l.length := by omega
        have hvi : nth (listSwap l (parentIdx j) j) (parentIdx j) =
            nth l j := nth_listSwap_fst l hil hjl
        have hvj : nth (listSwap l (parentIdx j) j) j = nth l (parentIdx j) :=
          nth_listSwap_snd l hjl
        have hvo : ∀ k, k ≠ parentIdx j → k ≠ j →
            nth (listSwap l (parentIdx j) j) k = nth l k :=
          fun k h1 h2 => nth_listSwap_other l h1 h2
        have hlen : (listSwap l (parentIdx j) j).length = l.length :=
          length_listSwap l _ _
        apply ih (listSwap l (parentIdx j) j) (parentIdx j) (by omega)
          (by omega)
        · -- edges except the one into parentIdx j
          intro c hc0 hcl2 hci
          rw [hlen] at hcl2
          by_cases hcj : c = j
          · subst hcj
            rw [hvi, hvj]
            exact hA1 _ _ hless
          · rw [hvo c hci hcj]
            by_cases hpc : parentIdx c = parentIdx j
            · rw [hpc, hvi]
              have h5 := hA c hc0 hcl2 hcj
              rw [hpc] at h5
              exact leB_trans hA2 (hA1 _ _ hless) h5
            · by_cases hpcj : parentIdx c = j
              · rw [hpcj, hvj]
                exact hB c hc0 hcl2 hpcj
              · rw [hvo (parentIdx c) hpc hpcj]
                exact hA c hc0 hcl2 hcj
        · -- children of the new hole parentIdx j
          intro c hc0 hcl2 hpc
          rw [hlen] at hcl2
          have hplt := parentIdx_lt hc0
          by_cases hiz : parentIdx j = 0
          · have hpp : parentIdx (parentIdx j) = parentIdx j := by
              rw [hiz]
              rfl
            rw [hpp, hvi]
            by_cases hcj : c = j
            · subst hcj
              rw [hvj]
              exact hA1 _ _ hless
            · rw [hvo c (by omega) hcj]
              have h5 := hA c hc0 hcl2 hcj
              rw [hpc] at h5
              exact leB_trans hA2 (hA1 _ _ hless) h5
          · have hppl : parentIdx (parentIdx j) < parentIdx j :=
              parentIdx_lt (by omega)
            rw [hvo (parentIdx (parentIdx j)) (by omega) (by omega)]
            have hedge : leB less (nth l (parentIdx (parentIdx j)))
                (nth l (parentIdx j)) :=
              hA (parentIdx j) (by omega) hil (by omega)
            by_cases hcj : c = j
            · subst hcj
              rw [hvj]
              exact hedge
            · rw [hvo c (by omega) hcj]
              have h5 := hA c hc0 hcl2 hcj
              rw [hpc] at h5
              exact leB_trans hA2 hedge h5
      · rw [if_neg hjz, if_neg hless]
        intro c hc0 hcl _
        by_cases hcj : c = j
        · subst hcj
          unfold leB
          simpa using hless
        · exact hA c hc0 hcl hcj

/-- The root of a heap is a minimum. -/
theorem heap_root_min [Inhabited α] {less : α → α → Bool}
    (hA1 : Asymm less) (hA2 : NegTrans less) (l : List α)
    (hp : heapProp less l) :
    ∀ k, k < l.length → leB less (nth l 0) (nth l k) := by
  intro k
  induction k using Nat.strong_induction_on with
  | _ k ih =>
    intro hk
    by_cases hk0 : k = 0
    · subst hk0
      exact leB_refl hA1 _
    · have hpl : parentIdx k < k := parentIdx_lt (by omega)
      exact leB_trans hA2 (ih (parentIdx k) hpl (by omega))
        (hp k (by omega) hk (Nat.zero_le _))

/-- heap.Push preserves the heap invariant. -/
theorem heapPush_spec [Inhabited α] {less : α → α → Bool}
    (hA1 : Asymm less) (hA2 : NegTrans less) (l : List α) (x : α)
    (hp : heapProp less l) :
    (heapPush less l x).length = l.length + 1 ∧
    heapProp less (heapPush less l x) := by
  have hlen : (l ++ [x]).length = l.length + 1 := by simp
  constructor
  · show (upAux less (l.length + 1) (l ++ [x]) l.length).length = _
    rw [upAux_length, hlen]
  · apply upAux_spec hA1 hA2 (l.length + 1) (l ++ [x]) l.length
      (by omega) (by omega)
    · intro c hc0 hcl hcj
      rw [hlen] at hcl
      have hcl2 : c < l.length := by omega
      have hpcl : parentIdx c < l.length := by
        have := parentIdx_lt hc0
        omega
      rw [nth_append_left l [x] hcl2, nth_append_left l [x] hpcl]
      exact hp c hc0 hcl2 (Nat.zero_le _)
    · intro c hc0 hcl hpc
      exfalso
      rw [hlen] at hcl
      unfold parentIdx at hpc
      omega

/-- heap.Pop returns the root. -/
theorem heapPop_fst [Inhabited α] (less : α → α → Bool) (l : List α)
    (hne : l ≠ []) :
    (heapPop less l).1 = nth l 0 := by
  have hlen : 0 < l.length := List.length_pos.mpr hne
  show nth (heapDown less (listSwap l 0 (l.length - 1)) 0 (l.length - 1))
    (l.length - 1) = nth l 0
  unfold heapDown
  rw [downAux_outside _ _ _ _ _ (Nat.le_refl _)]
  exact nth_listSwap_snd l (by omega)

/-- The length of the heap shrinks by one on every Pop. -/
theorem heapPop_length [Inhabited α] (less : α → α → Bool) (l : List α) :
    (heapPop less l).2.length = l.length - 1 := by
  show ((heapDown less (listSwap l 0 (l.length - 1)) 0
    (l.length - 1)).take (l.length - 1)).length = _
  unfold heapDown
  rw [List.length_take, downAux_length, length_listSwap]
  omega

/-- heap.Pop preserves the heap invariant and returns a permutation-lite
subset: every surviving element was in the original heap. -/
theorem heapPop_spec [Inhabited α] {less : α → α → Bool}
    (hA1 : Asymm less) (hA2 : NegTrans less) (l : List α)
    (hp : heapProp less l) (hne : l ≠ []) :
    heapProp less (heapPop less l).2 ∧
    (∀ k, k < l.length - 1 → ∃ m, m < l.length ∧
      nth (heapPop less l).2 k = nth l m) := by
  have hlen : 0 < l.length := List.length_pos.mpr hne
  have hswlen : (listSwap l 0 (l.length - 1)).length = l.length :=
    length_listSwap l _ _
  have hpop2 : (heapPop less l).2 =
      (heapDown less (listSwap l 0 (l.length - 1)) 0
        (l.length - 1)).take (l.length - 1) := rfl
  by_cases h1 : l.length = 1
  · constructor
    · intro c hc0 hcl _
      exfalso
      rw [hpop2] at hcl
      unfold heapDown at hcl
      rw [List.length_take, downAux_length, hswlen] at hcl
      omega
    · intro k hk
      omega
  · have hn1 : 1 ≤ l.length - 1 := by omega
    have hsw : ∀ c, 0 < c → c < l.length - 1 → 0 ≤ parentIdx c →
        parentIdx c ≠ 0 →
        leB less (nth (listSwap l 0 (l.length - 1)) (parentIdx c))
          (nth (listSwap l 0 (l.length - 1)) c) := by
      intro c hc0 hcn _ hpc
      have hplt : parentIdx c < c := parentIdx_lt hc0
      rw [nth_listSwap_other l hpc
          (show parentIdx c ≠ l.length - 1 by omega),
        nth_listSwap_other l (show c ≠ 0 by omega)
          (show c ≠ l.length - 1 by omega)]
      exact hp c hc0 (by omega) (Nat.zero_le _)
    rcases downAux_spec hA1 hA2 (l.length - 1)
      (listSwap l 0 (l.length - 1)) 0 0 (l.length - 1)
      (by omega) (by omega) (by omega) (by omega) hsw
      (fun h => absurd rfl h) with ⟨hheap, hout, hprov⟩
    constructor
    · intro c hc0 hcl hcp
      rw [hpop2] at hcl ⊢
      rw [List.length_take] at hcl
      unfold heapDown at hcl ⊢
      rw [downAux_length, hswlen] at hcl
      have hcn : c < l.length - 1 := by omega
      have hplt : parentIdx c < c := parentIdx_lt hc0
      rw [nth_take _ hcn, nth_take _ (by omega)]
      exact hheap c hc0 hcn (Nat.zero_le _)
    · intro k hk
      rw [hpop2]
      unfold heapDown
      rw [nth_take _ hk]
      rcases hprov k hk with ⟨m, hm, hv⟩
      rw [hv]
      by_cases hm0 : m = 0
      · refine ⟨l.length - 1, by omega, ?_⟩
        rw [hm0]
        exact nth_listSwap_fst l (by omega) (by omega)
      · refine ⟨m, by omega, ?_⟩
        exact nth_listSwap_other l hm0 (by omega)

theorem initFoldAux_succ [Inhabited α] (less : α → α → Bool)
    (n m : Nat) (l : List α) :
    initFoldAux less n (m + 1) l =
      initFoldAux less n m (heapDown less l m n) := by
  unfold initFoldAux
  rw [List.range_succ, List.reverse_append]
  rfl

theorem initFoldAux_spec [Inhabited α] {less : α → α → Bool}
    (hA1 : Asymm less) (hA2 : NegTrans less) (n : Nat) :
    ∀ (m : Nat) (l : List α), l.length = n → 2 * m ≤ n →
    (∀ c, 0 < c → c < n → m ≤ parentIdx c →
      leB less (nth l (parentIdx c)) (nth l c)) →
    (initFoldAux less n m l).length = n ∧
    HeapFrom less (initFoldAux less n m l) n 0 := by
  intro m
  induction m with
  | zero =>
    intro l hl hm hpre
    refine ⟨hl, ?_⟩
    intro c hc0 hcn _
    exact hpre c hc0 hcn (Nat.zero_le _)
  | succ m ih =>
    intro l hl hm hpre
    rw [initFoldAux_succ]
    have hmn : m < n := by omega
    have hdown := downAux_spec hA1 hA2 n l m m n (by omega) (by omega)
      hmn (by omega) (fun c hc0 hcn hcp hne => hpre c hc0 hcn (by omega))
      (fun h => absurd rfl h)
    rcases hdown with ⟨hheap, _, _⟩
    apply ih
    · show (downAux less n l m n).length = n
      rw [downAux_length, hl]
    · omega
    · intro c hc0 hcn hcp
      exact hheap c hc0 hcn (by omega)

/-- heap.Init establishes the heap invariant for any input list. -/
theorem heapInit_spec [Inhabited α] {less : α → α → Bool}
    (hA1 : Asymm less) (hA2 : NegTrans less) (l : List α) :
    (heapInit less l).length = l.length ∧
    heapProp less (heapInit less l) := by
  have heq : heapInit less l = initFoldAux less l.length (l.length / 2) l :=
    rfl
  have h := initFoldAux_spec hA1 hA2 l.length (l.length / 2) l rfl
    (by omega)
    (by
      intro c hc0 hcn hcp
      exfalso
      unfold parentIdx at hcp
      omega)
  rw [heq]
  refine ⟨h.1, ?_⟩
  show HeapFrom less _ (initFoldAux less l.length (l.length / 2) l).length 0
  rw [h.1]
  exact h.2

theorem clearHeapAux_length [Inhabited α] (less : α → α → Bool) :
    ∀ (k : Nat) (l : List α),
    (clearHeapAux less k l).2.length = l.length - k := by
  intro k
  induction k with
  | zero => intro l; simp [clearHeapAux]
  | succ k ih =>
    intro l
    show (clearHeapAux less k (heapPop less l).2).2.length = _
    rw [ih, heapPop_length]
    omega

/-! ## Heap invariants of reachable Priority states -/

section PriorityHeapInv

variable [Inhabited α] {less : α → α → Bool}

/-- Every reachable Priority state carries a valid heap (when the injected
comparison is a strict weak order), and its stored snapshot is a valid
heap as well. -/
theorem preachable_heap {given : List α} {cap : Option Nat}
    (hA1 : Asymm less) (hA2 : NegTrans less) {q : Priority α}
    (h : PReachable given less cap q) :
    heapProp less q.elements.elems ∧ heapProp less q.initialElements := by
  induction h with
  | new =>
    constructor
    · show heapProp less (heapInit less _)
      exact (heapInit_spec hA1 hA2 _).2
    · show heapProp less (heapInit less _)
      exact (heapInit_spec hA1 hA2 _).2
  | @offer q e hr ih =>
    rcases ih with ⟨h1, h2⟩
    have hless : q.elements.lessFunc = less := (preachable_basic hr).2.1
    have hstep : (q.Offer e).2 = q ∨
        ((q.Offer e).2.elements.elems =
          heapPush q.elements.lessFunc q.elements.elems e ∧
         (q.Offer e).2.initialElements = q.initialElements) := by
      unfold Priority.Offer
      rcases hc : q.capacity with _ | c
      · right
        exact ⟨rfl, rfl⟩
      · by_cases hf : c ≤ q.elements.elems.length
        · left
          simp [hf]
        · right
          simp [hf]
    rcases hstep with hs | ⟨hs1, hs2⟩
    · rw [hs]
      exact ⟨h1, h2⟩
    · constructor
      · rw [hs1, hless]
        exact (heapPush_spec hA1 hA2 _ _ h1).2
      · rw [hs2]
        exact h2
  | @get q hr ih =>
    rcases ih with ⟨h1, h2⟩
    have hless : q.elements.lessFunc = less := (preachable_basic hr).2.1
    have hstep : q.Get.2 = q ∨
        (q.Get.2.elements.elems =
          (heapPop q.elements.lessFunc q.elements.elems).2 ∧
         q.Get.2.initialElements = q.initialElements ∧
         q.elements.elems ≠ []) := by
      unfold Priority.Get
      by_cases he : q.elements.elems.length = 0
      · left
        rw [if_pos he]
      · right
        rw [if_neg he]
        exact ⟨rfl, rfl, fun hnil => he (by rw [hnil]; rfl)⟩
    rcases hstep with hs | ⟨hs1, hs2, hs3⟩
    · rw [hs]
      exact ⟨h1, h2⟩
    · constructor
      · rw [hs1, hless]
        exact (heapPop_spec hA1 hA2 _ h1 hs3).1
      · rw [hs2]
        exact h2
  | @clear q hr ih =>
    rcases ih with ⟨h1, h2⟩
    have hstep : q.Clear.2.elements.elems =
        (clearHeapAux q.elements.lessFunc q.elements.elems.length
          q.elements.elems).2 ∧
        q.Clear.2.initialElements = q.initialElements := ⟨rfl, rfl⟩
    constructor
    · rw [hstep.1]
      have hlen : (clearHeapAux q.elements.lessFunc
          q.elements.elems.length q.elements.elems).2.length = 0 := by
        rw [clearHeapAux_length]
        omega
      rw [List.length_eq_zero.mp hlen]
      intro c hc0 hcn _
      simp at hcn
    · rw [hstep.2]
      exact h2
  | @reset q hr ih =>
    rcases ih with ⟨h1, h2⟩
    have hstep : q.Reset.initialElements = q.initialElements := rfl
    constructor
    · show heapProp less q.Reset.elements.elems
      rw [priority_reset_elems]
      exact h2
    · rw [hstep]
      exact h2

/-- Repeated Get drains a valid heap in non-decreasing order, and every
drained element is an element of the heap. -/
theorem drainAux_spec (hA1 : Asymm less) (hA2 : NegTrans less) :
    ∀ (fuel : Nat) (pq : Priority α),
    pq.elements.elems.length ≤ fuel → pq.elements.lessFunc = less →
    heapProp less pq.elements.elems →
    List.Pairwise (leB less) (Priority.drainAux fuel pq) ∧
    (∀ x ∈ Priority.drainAux fuel pq, ∃ m,
      m < pq.elements.elems.length ∧ x = nth pq.elements.elems m) := by
  intro fuel
  induction fuel with
  | zero =>
    intro pq hlen hlf hp
    refine ⟨List.Pairwise.nil, ?_⟩
    intro x hx
    simp [Priority.drainAux] at hx
  | succ fuel ih =>
    intro pq hlen hlf hp
    by_cases he : pq.elements.elems.length = 0
    · have hget : pq.Get = (.error .noElementsAvailable, pq) := by
        unfold Priority.Get
        rw [if_pos he]
      have hdrain : Priority.drainAux (fuel + 1) pq = [] := by
        unfold Priority.drainAux
        rw [hget]
      rw [hdrain]
      refine ⟨List.Pairwise.nil, ?_⟩
      intro x hx
      simp at hx
    · have hne : pq.elements.elems ≠ [] := fun h => he (by rw [h]; rfl)
      have hget : pq.Get =
          (.ok (heapPop pq.elements.lessFunc pq.elements.elems).1,
           { pq with elements := { pq.elements with
             elems := (heapPop pq.elements.lessFunc
               pq.elements.elems).2 } }) := by
        unfold Priority.Get
        rw [if_neg he]
      have hdrain : Priority.drainAux (fuel + 1) pq =
          (heapPop pq.elements.lessFunc pq.elements.elems).1 ::
          Priority.drainAux fuel
            { pq with elements := { pq.elements with
              elems := (heapPop pq.elements.lessFunc
                pq.elements.elems).2 } } := by
        rw [show Priority.drainAux (fuel + 1) pq = (match pq.Get with
          | (Except.ok e, pq2) => e :: Priority.drainAux fuel pq2
          | (Except.error _, _) => []) from rfl, hget]
      have hfst : (heapPop pq.elements.lessFunc pq.elements.elems).1 =
          nth pq.elements.elems 0 := by
        rw [hlf]
        exact heapPop_fst less _ hne
      have hlen2 : (heapPop pq.elements.lessFunc
          pq.elements.elems).2.length = pq.elements.elems.length - 1 := by
        rw [hlf]
        exact heapPop_length less _
      have hspec := heapPop_spec hA1 hA2 pq.elements.elems hp hne
      rcases ih { pq with elements := { pq.elements with
          elems := (heapPop pq.elements.lessFunc pq.elements.elems).2 } }
        (by rw [hlen2] at *; omega) hlf (by rw [hlf]; exact hspec.1)
        with ⟨hpair, hmem⟩
      have hsub : ∀ x, x ∈ Priority.drainAux fuel
          { pq with elements := { pq.elements with
            elems := (heapPop pq.elements.lessFunc
              pq.elements.elems).2 } } →
          ∃ m2, m2 < pq.elements.elems.length ∧
            x = nth pq.elements.elems m2 := by
        intro x hx
        rcases hmem x hx with ⟨m, hm, hv⟩
        rw [hlen2] at hm
        rcases hspec.2 m hm with ⟨m2, hm2, hv2⟩
        rw [hlf] at hv
        exact ⟨m2, hm2, by rw [hv, hv2]⟩
      rw [hdrain]
      constructor
      · refine List.pairwise_cons.mpr ⟨?_, hpair⟩
        intro y hy
        rcases hsub y hy with ⟨m2, hm2, hv2⟩
        rw [hfst, hv2]
        exact heap_root_min hA1 hA2 _ hp m2 hm2
      · intro x hx
        rcases List.mem_cons.mp hx with hx1 | hx2
        · exact ⟨0, by omega, by rw [hx1, hfst]⟩
        · exact hsub x hx2

end PriorityHeapInv

end HeapLemmas

/-! ## Claims C1 - C6, C9, C10 -/

/-- C1 (counterexample): with capacity 3 and initial elements [1,2,3],
Offer(4) followed by Clear() yields [4,2,3], not [2,3,4] as the claim
states, and head is not advanced (it stays 0). -/
theorem C1_counterexample :
    (((NewCircular ([1, 2, 3] : List Int) 3).Offer 4).bind
      (fun q2 => (q2.Clear).map Prod.fst)) = some [4, 2, 3] ∧
    some [4, 2, 3] ≠ some ([2, 3, 4] : List Int) ∧
    ((NewCircular ([1, 2, 3] : List Int) 3).Offer 4).map Circular.head =
      some 0 := by
  refine ⟨by decide, by decide, by decide⟩

/-- C1 (amended): Offer on a full Circular queue writes at index tail and
advances tail = (tail+1) mod capacity, leaving head and size unchanged
(head is NOT advanced); the element at index tail is overwritten in place.
Concretely, capacity 3 with [1,2,3]: Offer(4) makes the backing slice
[4,2,3] with head 0, tail 1, and Clear() returns [4,2,3]; Size stays 3. -/
theorem C1_circular_offer_full (q : Circular Int) (e : Int)
    (hfull : q.size = q.elems.length) (ht : q.tail < q.elems.length) :
    q.Offer e = some { q with elems := q.elems.set q.tail e,
                              tail := (q.tail + 1) % q.elems.length } ∧
    (NewCircular ([1, 2, 3] : List Int) 3).Offer 4 =
      some { NewCircular ([1, 2, 3] : List Int) 3 with
        elems := [4, 2, 3], tail := 1 } ∧
    (((NewCircular ([1, 2, 3] : List Int) 3).Offer 4).bind
      (fun q2 => (q2.Clear).map Prod.fst)) = some [4, 2, 3] ∧
    ((NewCircular ([1, 2, 3] : List Int) 3).Offer 4).map Circular.Size =
      some 3 := by
  refine ⟨?_, by decide, by decide, by decide⟩
  unfold Circular.Offer
  rw [if_pos ht, if_neg (by omega)]

/-- C1 (witness): the amended Offer description applied to the concrete
full queue built from [1,2,3] with capacity 3. -/
theorem C1_witness :
    (NewCircular ([1, 2, 3] : List Int) 3).size =
      (NewCircular ([1, 2, 3] : List Int) 3).elems.length ∧
    (NewCircular ([1, 2, 3] : List Int) 3).Offer 4 =
      some { NewCircular ([1, 2, 3] : List Int) 3 with
        elems := ([1, 2, 3] : List Int).set 0 4, tail := (0 + 1) % 3 } :=
  ⟨by decide,
    (C1_circular_offer_full (NewCircular ([1, 2, 3] : List Int) 3) 4
      (by decide) (by decide)).1⟩

/-- C2 (counterexample): constructing with more initial elements than the
capacity and calling Reset leaves a Circular queue with size 2 > capacity 1
and a Blocking queue with 3 live elements > capacity 2; both states are
reachable (construction followed by Reset). -/
theorem C2_counterexample :
    ((NewCircular ([1, 2] : List Int) 1).Reset).size = 2 ∧
    ¬ ((NewCircular ([1, 2] : List Int) 1).Reset).size ≤
      (NewCircular ([1, 2] : List Int) 1).Reset.elems.length ∧
    ((NewBlocking ([1, 2, 3] : List Int) (some 2)).Reset).1.elems.length
      = 3 ∧
    ¬ ((NewBlocking ([1, 2, 3] : List Int) (some 2)).Reset).1.elems.length
      ≤ 2 := by
  refine ⟨by decide, by decide, by decide, by decide⟩

/-- C2 (amended): provided the initial elements fit within the configured
capacity, every reachable Circular state satisfies 0 <= size <= capacity
and every reachable Blocking state holds at most capacity live elements.
(Reset on a queue constructed with more initial elements than capacity
restores the untruncated snapshot and violates the bound.) -/
theorem C2_capacity_invariant
    (gc : List Int) (capa : Nat) (qc : Circular Int)
    (hfit : gc.length ≤ capa) (hc : CircReachable gc capa qc)
    (gb : List Int) (capb : Option Nat) (qb : Blocking Int)
    (hb : BReachable gb capb qb) :
    (0 ≤ qc.size ∧ qc.size ≤ capa) ∧
    (∀ c, capb = some c → gb.length ≤ c → qb.elems.length ≤ c) := by
  refine ⟨⟨Nat.zero_le _, (circ_reachable_inv hc).2.2 hfit⟩, ?_⟩
  intro c hcc hle
  exact (breachable_inv hb).2.2 c hcc hle

/-- C2 (witness): the invariant at the constructed states for a Circular
queue over [5] with capacity 2 and a Blocking queue over [7] with
capacity 3. -/
theorem C2_witness :
    (0 ≤ (NewCircular ([5] : List Int) 2).size ∧
      (NewCircular ([5] : List Int) 2).size ≤ 2) ∧
    (∀ c, (some 3 : Option Nat) = some c → ([7] : List Int).length ≤ c →
      (NewBlocking ([7] : List Int) (some 3)).elems.length ≤ c) :=
  C2_capacity_invariant [5] 2 _ (by decide) CircReachable.new
    [7] (some 3) _ BReachable.new

/-- C3 (counterexample): a Blocking queue built from [1,2,3] with capacity
2 holds [1,2] immediately after construction, but Reset restores the full
untruncated snapshot [1,2,3] — not the post-construction sequence. -/
theorem C3_counterexample :
    (NewBlocking ([1, 2, 3] : List Int) (some 2)).elems = [1, 2] ∧
    (NewBlocking ([1, 2, 3] : List Int) (some 2)).Reset.1.elems =
      [1, 2, 3] ∧
    (NewBlocking ([1, 2, 3] : List Int) (some 2)).Reset.1.elems ≠
      (NewBlocking ([1, 2, 3] : List Int) (some 2)).elems := by
  refine ⟨by decide, by decide, by decide⟩

/-- C3 (amended): for every variant and any sequence of operations after
construction, Reset restores exactly the element sequence and size present
immediately after construction, provided the initial elements fit within
the configured capacity (for Priority and Linked this holds
unconditionally); a Blocking or Circular queue constructed with more
initial elements than capacity instead gets the untruncated snapshot
back. -/
theorem C3_reset_restores_snapshot
    (gb : List Int) (capb : Option Nat) (qb : Blocking Int)
    (hfitb : ∀ c, capb = some c → gb.length ≤ c)
    (hb : BReachable gb capb qb)
    (gc : List Int) (capc : Nat) (qc : Circular Int)
    (hfitc : gc.length ≤ capc) (hc : CircReachable gc capc qc)
    (gp : List Int) (less : Int → Int → Bool) (capp : Option Nat)
    (qp : Priority Int) (hp : PReachable gp less capp qp)
    (gl : List Int) (ql : Linked Int) (hl : LReachable gl ql) :
    qb.Reset.1.elems = (NewBlocking gb capb).elems ∧
    (qc.Reset.Clear).map Prod.fst =
      ((NewCircular gc capc).Clear).map Prod.fst ∧
    qc.Reset.size = (NewCircular gc capc).size ∧
    qp.Reset.elements.elems = (NewPriority gp less capp).elements.elems ∧
    ql.Reset.list = (NewLinked gl).list ∧
    ql.Reset.size = (NewLinked gl).size := by
  have hnewb : (NewBlocking gb capb).elems = gb := by
    rcases capb with _ | c
    · rfl
    · have := hfitb c rfl
      show (if c < gb.length then gb.take c else gb) = gb
      rw [if_neg (by omega)]
  rcases circ_reachable_inv hc with ⟨hci, hclen, hcsz⟩
  have hNsize : (NewCircular gc capc).size = gc.length := by
    show (if gc.length < capc then gc.length else capc) = gc.length
    split <;> omega
  have hNelems : (NewCircular gc capc).elems =
      gc ++ List.replicate (capc - gc.length) default := by
    show gc.take capc ++ _ = _
    rw [List.take_of_length_le hfitc]
  constructor
  · show qb.initialElems = _
    rw [(breachable_inv hb).1, hnewb]
  constructor
  · have hres : (qc.Reset.Clear).map Prod.fst = some gc := by
      rw [circ_clear_no_wrap _ (by
        show 0 + qc.initialElements.length ≤ (copySlice qc.elems _).length
        rw [length_copySlice, hci, hclen]
        omega)]
      show some (((copySlice qc.elems qc.initialElements).drop 0).take
        qc.initialElements.length) = _
      rw [List.drop_zero, hci,
        copySlice_eq_of_length_le _ _ (by rw [hclen]; exact hfitc),
        List.take_left]
    have hnew : ((NewCircular gc capc).Clear).map Prod.fst = some gc := by
      rw [circ_clear_no_wrap _ (by
        rw [length_elems_NewCircular, hNsize]
        show 0 + gc.length ≤ capc
        omega)]
      rw [hNsize, hNelems]
      show some (((gc ++ _).drop 0).take gc.length) = _
      rw [List.drop_zero, List.take_left]
    rw [hres, hnew]
  constructor
  · show qc.initialElements.length = _
    rw [hci, hNsize]
  constructor
  · rw [priority_reset_elems, (preachable_basic hp).1]
    rfl
  · have hl2 := lreachable_inv hl
    constructor
    · unfold Linked.Reset NewLinked
      rw [linked_foldl_offer, linked_foldl_offer]
      simp [hl2.1]
    · unfold Linked.Reset NewLinked
      rw [linked_foldl_offer, linked_foldl_offer]
      simp [hl2.1]

/-- C3 (witness): the amended statement at the constructed states of all
four variants (Blocking over [1,2] capacity 4, Circular over [1] capacity
2, Priority over [3,1] with ascending order, Linked over [9,8]). -/
theorem C3_witness :
    (NewBlocking ([1, 2] : List Int) (some 4)).Reset.1.elems =
      (NewBlocking ([1, 2] : List Int) (some 4)).elems ∧
    ((NewCircular ([1] : List Int) 2).Reset.Clear).map Prod.fst =
      ((NewCircular ([1] : List Int) 2).Clear).map Prod.fst ∧
    (NewPriority ([3, 1] : List Int) (fun a b => decide (a < b))
        none).Reset.elements.elems =
      (NewPriority ([3, 1] : List Int) (fun a b => decide (a < b))
        none).elements.elems ∧
    (NewLinked ([9, 8] : List Int)).Reset.list =
      (NewLinked ([9, 8] : List Int)).list := by
  have h := C3_reset_restores_snapshot
    [1, 2] (some 4) _ (by intro c hc; cases hc; decide) BReachable.new
    [1] 2 _ (by decide) CircReachable.new
    [3, 1] (fun a b => decide (a < b)) none _ PReachable.new
    [9, 8] _ LReachable.new
  exact ⟨h.1, h.2.1, h.2.2.2.1, h.2.2.2.2.1⟩

/-- C4 (counterexample): Blocking.Reset emits exactly one wake-up, a
broadcast on the not-empty condition; no signal or broadcast on the
not-full condition is performed, so OfferWait callers are not woken. -/
theorem C4_counterexample :
    (NewBlocking ([] : List Int) (some 1)).Reset.2 =
      [CondAction.broadcast CondVar.notEmpty] ∧
    CondAction.broadcast CondVar.notFull ∉
      (NewBlocking ([] : List Int) (some 1)).Reset.2 ∧
    CondAction.signal CondVar.notFull ∉
      (NewBlocking ([] : List Int) (some 1)).Reset.2 := by
  refine ⟨by decide, by decide, by decide⟩

/-- C4 (amended): when Blocking.Reset runs it broadcasts on the not-empty
condition, waking every caller suspended waiting for not-empty
(GetWait/PeekWait/Take); it performs no action on the not-full condition,
so callers suspended in OfferWait are not woken. -/
theorem C4_reset_broadcast (bq : Blocking Int) :
    bq.Reset.2 = [CondAction.broadcast CondVar.notEmpty] := rfl

/-- C5: evaluating the code at the failing input.  Circular queue over
[1,2,3,4] with capacity 4; after one Get the live contents are [2,3,4]
(as Clear shows), yet Contains(2) returns false because the scan loop
starts its index at head instead of 0. -/
theorem C5_contains_bug :
    ((NewCircular ([1, 2, 3, 4] : List Int) 4).get).bind
        (fun p => p.2.Contains 2) = some false ∧
    ((NewCircular ([1, 2, 3, 4] : List Int) 4).get).bind
        (fun p => (p.2.Clear).map Prod.fst) = some [2, 3, 4] ∧
    (2 : Int) ∈ [2, 3, 4] := by
  refine ⟨by decide, by decide, by decide⟩

/-- C6 (counterexample): Offer on a zero-capacity Circular queue panics
(index out of range on the write, modelled as none); it does not return
normally. -/
theorem C6_counterexample :
    (NewCircular ([] : List Int) 0).Offer 7 = none := by decide

/-- C6 (amended): construction with capacity 0 or an empty initial slice
always succeeds (and yields an empty backing slice for capacity 0), and
Offer is well-defined whenever the tail index is within the backing slice
— but on a zero-capacity queue the write panics instead of performing a
same-slot overwrite. -/
theorem C6_zero_capacity (given : List Int) (e : Int) (q : Circular Int)
    (ht : q.tail < q.elems.length) :
    (NewCircular given 0).Offer e = none ∧
    (NewCircular given 0).elems.length = 0 ∧
    (NewCircular ([] : List Int) 5).Offer e ≠ none ∧
    ∃ q2, q.Offer e = some q2 := by
  refine ⟨?_, ?_, ?_, ?_⟩
  · show (if 0 < (NewCircular given 0).elems.length then _ else none) = none
    rw [if_neg (by rw [length_elems_NewCircular]; omega)]
  · exact length_elems_NewCircular given 0
  · unfold Circular.Offer
    rw [if_pos (show (NewCircular ([] : List Int) 5).tail <
      (NewCircular ([] : List Int) 5).elems.length by decide)]
    simp
  · unfold Circular.Offer
    rw [if_pos ht]
    exact ⟨_, rfl⟩

/-- C6 (witness): the amended statement at given = [9], e = 5, and a
one-slot queue whose tail is in range. -/
theorem C6_witness :
    (NewCircular ([9] : List Int) 0).Offer 5 = none ∧
    ∃ q2, (NewCircular ([] : List Int) 1).Offer 5 = some q2 := by
  have h := C6_zero_capacity [9] 5 (NewCircular ([] : List Int) 1)
    (by decide)
  exact ⟨h.1, h.2.2.2⟩

/-- C9: FIFO order.  For any offer sequence os, offering them to an empty
Linked queue and then performing as many Gets returns exactly os, and the
same holds for a Blocking queue starting empty whenever os fits within the
configured capacity (unbounded queues accept all offers). -/
theorem C9_fifo_order (os : List Int) (cap : Option Nat)
    (hcap : ∀ c, cap = some c → os.length ≤ c) :
    (getAllL os.length (offerAllL (NewLinked []) os)).1 =
      os.map Except.ok ∧
    (getAllB os.length (offerAllB (NewBlocking [] cap) os)).1 =
      os.map Except.ok := by
  constructor
  · apply getAllL_run
    · unfold offerAllL
      rw [linked_foldl_offer]
      simp [NewLinked]
    · unfold offerAllL
      rw [linked_foldl_offer]
      simp [NewLinked]
  · have hbase : (NewBlocking ([] : List Int) cap).elems = [] := by
      rcases cap with _ | c
      · rfl
      · show (if c < ([] : List Int).length then ([] : List Int).take c
          else ([] : List Int)) = []
        rw [if_neg (by simp)]
    apply getAllB_run
    have h2 := offerAllB_elems os (NewBlocking [] cap) (by
      intro c hc
      have hcc : cap = some c := hc
      rw [hbase]
      simpa using hcap c hcc)
    rw [h2, hbase]
    simp

/-- C9 (witness): three offers drained in order from both variants, the
Blocking queue bounded by capacity 5. -/
theorem C9_witness :
    (getAllL 3 (offerAllL (NewLinked []) ([10, 20, 30] : List Int))).1 =
      [Except.ok 10, Except.ok 20, Except.ok 30] ∧
    (getAllB 3 (offerAllB (NewBlocking [] (some 5))
      ([10, 20, 30] : List Int))).1 =
      [Except.ok 10, Except.ok 20, Except.ok 30] :=
  C9_fifo_order [10, 20, 30] (some 5) (by intro c hc; cases hc; decide)

/-- C10: error handling.  Get and Peek on an empty queue return the
no-elements-available sentinel with the state unchanged, and Offer on a
capacity-bounded Blocking or Priority queue at capacity returns the
queue-is-full sentinel with the state unchanged. -/
theorem C10_error_handling
    (bq : Blocking Int) (pq : Priority Int) (cq : Circular Int)
    (lq : Linked Int) :
    (bq.isEmpty = true →
      bq.get = (.error .noElementsAvailable, bq, []) ∧
      bq.Peek = .error .noElementsAvailable) ∧
    (bq.isFull = true →
      ∀ e, bq.Offer e = (.error .queueIsFull, bq, [])) ∧
    (pq.elements.elems = [] →
      pq.Get = (.error .noElementsAvailable, pq) ∧
      pq.Peek = .error .noElementsAvailable) ∧
    (∀ c, pq.capacity = some c → c ≤ pq.elements.elems.length →
      ∀ e, pq.Offer e = (.error .queueIsFull, pq)) ∧
    (cq.isEmpty = true →
      cq.get = some (.error .noElementsAvailable, cq) ∧
      cq.Peek = .error .noElementsAvailable) ∧
    (lq.isEmpty = true →
      lq.Get = (.error .noElementsAvailable, lq) ∧
      lq.Peek = .error .noElementsAvailable) := by
  refine ⟨?_, ?_, ?_, ?_, ?_, ?_⟩
  · intro he
    unfold Blocking.get Blocking.Peek
    rw [if_pos he, if_pos he]
    exact ⟨rfl, rfl⟩
  · intro hf e
    unfold Blocking.Offer
    rw [if_pos hf]
  · intro he
    unfold Priority.Get Priority.Peek
    rw [if_pos (by rw [he]; rfl), if_pos (by rw [he]; rfl)]
    exact ⟨rfl, rfl⟩
  · intro c hc hfull e
    unfold Priority.Offer
    rw [hc]
    simp [hfull]
  · intro he
    unfold Circular.get Circular.Peek
    rw [if_pos he, if_pos he]
    exact ⟨rfl, rfl⟩
  · intro he
    unfold Linked.Get Linked.Peek
    rw [if_pos he, if_pos he]
    exact ⟨rfl, rfl⟩

/-- C7 (counterexample): the spec allows the injected ordering to be
partial.  With the partial order that only relates 1 below 2, the queue
built from [2,3,4,1] is a valid heap, yet draining it via repeated Get
yields [2,1,4,3]: the element 1 is returned immediately after 2 although
1 strictly precedes 2 under the injected less — the drain is not
non-decreasing. -/
theorem C7_counterexample :
    Priority.drain (NewPriority ([2, 3, 4, 1] : List Int)
      (fun a b => decide (a = 1 ∧ b = 2)) none) = [2, 1, 4, 3] ∧
    (fun a b : Int => decide (a = 1 ∧ b = 2))
      (nth (Priority.drain (NewPriority ([2, 3, 4, 1] : List Int)
        (fun a b => decide (a = 1 ∧ b = 2)) none)) 1)
      (nth (Priority.drain (NewPriority ([2, 3, 4, 1] : List Int)
        (fun a b => decide (a = 1 ∧ b = 2)) none)) 0) = true := by
  refine ⟨by decide, by decide⟩

/-- C7 (amended): when the injected less is a strict weak order
(asymmetric and negatively transitive — any total order qualifies), then
for every reachable Priority queue draining via repeated Get returns the
elements in non-decreasing order under less (pairwise, no later element
strictly precedes an earlier one), Peek and an immediately following Get
return the same element (the root), and concretely the queue built from
[4,1,2] with ascending order and capacity 4 drains to [1,2,4,5] after
Offer(5).  For a merely partial order the drain can be out of order. -/
theorem C7_priority_order (less : Int → Int → Bool)
    (hA1 : Asymm less) (hA2 : NegTrans less)
    (given : List Int) (cap : Option Nat) (q : Priority Int)
    (h : PReachable given less cap q) :
    List.Pairwise (leB less) q.drain ∧
    (q.elements.elems ≠ [] →
      q.Get.1 = .ok (nth q.elements.elems 0) ∧
      q.Peek = .ok (nth q.elements.elems 0)) ∧
    Priority.drain ((NewPriority ([4, 1, 2] : List Int)
      (fun a b => decide (a < b)) (some 4)).Offer 5).2 = [1, 2, 4, 5] := by
  have hb := preachable_basic h
  have hp := (preachable_heap hA1 hA2 h).1
  refine ⟨?_, ?_, by decide⟩
  · exact (drainAux_spec hA1 hA2 q.elements.elems.length q
      (Nat.le_refl _) hb.2.1 hp).1
  · intro hne
    have he : ¬ q.elements.elems.length = 0 :=
      fun h0 => hne (List.length_eq_zero.mp h0)
    constructor
    · show (Priority.Get q).1 = _
      unfold Priority.Get
      rw [if_neg he]
      show Except.ok (heapPop q.elements.lessFunc q.elements.elems).1 = _
      rw [hb.2.1, heapPop_fst less _ hne]
    · unfold Priority.Peek
      rw [if_neg he]

/-- C7 (witness): the amended statement at the concrete queue from the
spec ([4,1,2], ascending order, capacity 4, then Offer(5)), reachable by
construction followed by one Offer. -/
theorem C7_witness :
    List.Pairwise (leB (fun a b : Int => decide (a < b)))
      (Priority.drain ((NewPriority ([4, 1, 2] : List Int)
        (fun a b => decide (a < b)) (some 4)).Offer 5).2) ∧
    Priority.drain ((NewPriority ([4, 1, 2] : List Int)
      (fun a b => decide (a < b)) (some 4)).Offer 5).2 = [1, 2, 4, 5] := by
  have h := C7_priority_order (fun a b => decide (a < b))
    (by intro a b hab; simp at hab ⊢; omega)
    (by intro a b c h1 h2; simp at h1 h2 ⊢; omega)
    [4, 1, 2] (some 4) _
    (PReachable.offer 5 PReachable.new)
  exact ⟨h.1, h.2.2⟩

/-- C8 (counterexample): with ascending order on the duplicate list
[1,1], the heap array is [1,1] — a valid container/heap state — yet
less(parent(1), elems(1)) is 1 < 1 which is false, so the claimed
invariant less(parent(i), i) does not hold at the non-root index 1. -/
theorem C8_counterexample :
    (NewPriority ([1, 1] : List Int) (fun a b => decide (a < b))
      none).elements.elems = [1, 1] ∧
    ¬ ((fun a b : Int => decide (a < b))
        (nth (NewPriority ([1, 1] : List Int) (fun a b => decide (a < b))
          none).elements.elems (parentIdx 1))
        (nth (NewPriority ([1, 1] : List Int) (fun a b => decide (a < b))
          none).elements.elems 1) = true) := by
  refine ⟨by decide, by decide⟩

/-- C8 (amended): in every reachable Priority state, when the injected
less is a strict weak order, the backing array satisfies the container/
heap invariant: no element strictly precedes its parent under less
(less(elems(i), elems(parent(i))) is false for every non-root i; the
strict form less(parent(i), i) fails for duplicate elements), and the
root at index 0 is a highest-priority element: no element strictly
precedes it. -/
theorem C8_heap_invariant (less : Int → Int → Bool)
    (hA1 : Asymm less) (hA2 : NegTrans less)
    (given : List Int) (cap : Option Nat) (q : Priority Int)
    (h : PReachable given less cap q) :
    (∀ i, 0 < i → i < q.elements.elems.length →
      less (nth q.elements.elems i) (nth q.elements.elems (parentIdx i))
        = false) ∧
    (∀ k, k < q.elements.elems.length →
      less (nth q.elements.elems k) (nth q.elements.elems 0) = false) := by
  have hp := (preachable_heap hA1 hA2 h).1
  constructor
  · intro i h0 hlen
    exact hp i h0 hlen (Nat.zero_le _)
  · intro k hk
    exact heap_root_min hA1 hA2 _ hp k hk

/-- C8 (witness): the amended invariant at the constructed queue over
[4,1,2] with ascending order: no child precedes its parent and no element
precedes the root. -/
theorem C8_witness :
    (fun a b : Int => decide (a < b))
      (nth (NewPriority ([4, 1, 2] : List Int)
        (fun a b => decide (a < b)) none).elements.elems 1)
      (nth (NewPriority ([4, 1, 2] : List Int)
        (fun a b => decide (a < b)) none).elements.elems (parentIdx 1))
      = false ∧
    (fun a b : Int => decide (a < b))
      (nth (NewPriority ([4, 1, 2] : List Int)
        (fun a b => decide (a < b)) none).elements.elems 2)
      (nth (NewPriority ([4, 1, 2] : List Int)
        (fun a b => decide (a < b)) none).elements.elems 0) = false := by
  have h := C8_heap_invariant (fun a b => decide (a < b))
    (by intro a b hab; simp at hab ⊢; omega)
    (by intro a b c h1 h2; simp at h1 h2 ⊢; omega)
    [4, 1, 2] none _ PReachable.new
  exact ⟨h.1 1 (by omega) (by decide), h.2 2 (by decide)⟩

/-- C10 (witness): the error cases at concrete full/empty queues (an empty
Blocking queue with capacity 0 is simultaneously empty and full; a
Priority queue at capacity 1; an empty Circular and Linked queue). -/
theorem C10_witness :
    (NewBlocking ([] : List Int) (some 0)).get =
      (.error .noElementsAvailable, NewBlocking ([] : List Int) (some 0),
        []) ∧
    (NewBlocking ([] : List Int) (some 0)).Offer 7 =
      (.error .queueIsFull, NewBlocking ([] : List Int) (some 0), []) ∧
    (NewPriority ([4] : List Int) (fun a b => decide (a < b))
        (some 1)).Offer 9 =
      (.error .queueIsFull,
        NewPriority ([4] : List Int) (fun a b => decide (a < b)) (some 1)) ∧
    (NewCircular ([] : List Int) 2).get =
      some (.error .noElementsAvailable, NewCircular ([] : List Int) 2) ∧
    (NewLinked ([] : List Int)).Get =
      (.error .noElementsAvailable, NewLinked ([] : List Int)) := by
  have h := C10_error_handling (NewBlocking ([] : List Int) (some 0))
    (NewPriority ([4] : List Int) (fun a b => decide (a < b)) (some 1))
    (NewCircular ([] : List Int) 2) (NewLinked ([] : List Int))
  exact ⟨(h.1 (by decide)).1, h.2.1 (by decide) 7,
    h.2.2.2.1 1 rfl (by rfl) 9, (h.2.2.2.2.1 (by decide)).1,
    (h.2.2.2.2.2 (by decide)).1⟩

end Queue
